import Mathlib

/-!
Verification development for the open-finops-stack ingestion engine.

Shallow embedding of the load-state stores (`core/backends/duckdb.py`,
`core/backends/clickhouse.py`), the AWS manifest locator
(`src/pipelines/aws/manifest.py`), the AWS v1 manifest normalizer
(`open_finops/aws_ofs/manifest_normalizer.py`), the table-name sanitizer
(`core/table_utils.py`) and the skip-or-load decision of the orchestrator
(`vendors/aws/pipeline.py`).

SQL statements are modelled as pure functions on a list of rows; each
statement is a separate function because the Python code issues each one as
its own auto-committed command (no transactions are opened anywhere).
Timestamps are modelled as an abstract clock (a natural number threaded
through the operation sequence).
-/

namespace OFS

/-- Four-part primary key of the `load_state` table. -/
structure LoadKey where
  vendor : String
  export_name : String
  billing_period : String
  version_id : String
deriving DecidableEq, Repr

/-- The (vendor, export_name, billing_period) part of a key: the granularity
at which the "current version" pointer lives. -/
def monthOf (k : LoadKey) : String × String × String :=
  (k.vendor, k.export_name, k.billing_period)

/-! DuckDB state store (`DuckDBStateManager`).  One row per key; the
`load_state` table has a primary key on the four-tuple, `current_version`
defaults to FALSE, `row_count` and `error_message` are nullable. -/

/-- A row of `billing_state.load_state` in the DuckDB backend. -/
structure DBRec where
  key : LoadKey
  data_format_version : String
  current_version : Bool
  load_timestamp : Nat
  load_completed : Bool
  row_count : Option Nat
  file_count : Nat
  error_message : Option String
deriving DecidableEq, Repr

/-- `DuckDBStateManager.start_load`: checks for an existing row with the
same key; if present, UPDATEs it (fresh timestamp, `load_completed=FALSE`,
new `file_count`, `error_message=NULL`); otherwise INSERTs a new row with
`load_completed=FALSE` and the `current_version` column left at its
default FALSE.  `dbStartFn` is the per-row effect of the UPDATE. -/
def dbStartFn (t : Nat) (k : LoadKey) (fc : Nat) (r : DBRec) : DBRec :=
  if r.key = k then
    { r with load_timestamp := t, load_completed := false,
             file_count := fc, error_message := none }
  else r

/-- `DuckDBStateManager.start_load` (see `dbStartFn`). -/
def dbStartLoad (t : Nat) (k : LoadKey) (fmt : String) (fc : Nat)
    (s : List DBRec) : List DBRec :=
  if s.any (fun r => decide (r.key = k)) then
    s.map (dbStartFn t k fc)
  else
    s ++ [{ key := k, data_format_version := fmt, current_version := false,
            load_timestamp := t, load_completed := false, row_count := none,
            file_count := fc, error_message := none }]

/-- First statement of `DuckDBStateManager.complete_load`: demote every row
sharing (vendor, export_name, billing_period) whose `version_id` differs. -/
def dbDemoteOthers (k : LoadKey) (s : List DBRec) : List DBRec :=
  s.map (fun r =>
    if monthOf r.key = monthOf k ∧ r.key.version_id ≠ k.version_id then
      { r with current_version := false }
    else r)

/-- Second statement of `complete_load`: set `load_completed=TRUE` on the
keyed row. -/
def dbMarkCompleted (k : LoadKey) (s : List DBRec) : List DBRec :=
  s.map (fun r => if r.key = k then { r with load_completed := true } else r)

/-- Third statement of `complete_load`: set `current_version=TRUE` on the
keyed row. -/
def dbMarkCurrent (k : LoadKey) (s : List DBRec) : List DBRec :=
  s.map (fun r => if r.key = k then { r with current_version := true } else r)

/-- Fourth statement of `complete_load`: set `row_count` on the keyed row. -/
def dbSetRowCount (k : LoadKey) (rc : Nat) (s : List DBRec) : List DBRec :=
  s.map (fun r => if r.key = k then { r with row_count := some rc } else r)

/-- `DuckDBStateManager.complete_load`: the four UPDATE statements in
source order, each auto-committed. -/
def dbCompleteLoad (k : LoadKey) (rc : Nat) (s : List DBRec) : List DBRec :=
  dbSetRowCount k rc (dbMarkCurrent k (dbMarkCompleted k (dbDemoteOthers k s)))

/-- `DuckDBStateManager.fail_load`: one UPDATE setting
`load_completed=FALSE` and the error message on the keyed row; a key with
no row matches nothing and the statement is a silent no-op.  `dbFailFn`
is the per-row effect of the UPDATE. -/
def dbFailFn (k : LoadKey) (msg : String) (r : DBRec) : DBRec :=
  if r.key = k then
    { r with load_completed := false, error_message := some msg }
  else r

/-- `DuckDBStateManager.fail_load` (see `dbFailFn`). -/
def dbFailLoad (k : LoadKey) (msg : String) (s : List DBRec) : List DBRec :=
  s.map (dbFailFn k msg)

/-- `DuckDBStateManager.is_version_loaded`: a row with this key exists and
has `load_completed=TRUE`. -/
def dbIsVersionLoaded (k : LoadKey) (s : List DBRec) : Bool :=
  s.any (fun r => decide (r.key = k) && r.load_completed)

/-! ClickHouse state store (`ClickHouseStateManager`).  The table is a plain
MergeTree with no primary-key constraint, so rows can repeat a key;
`start_load` is an unconditional INSERT.  Columns absent from the INSERT
take ClickHouse type defaults (empty string, zero). -/

/-- Load status values stored in the ClickHouse `status` String column. -/
inductive LStatus where
  | started
  | completed
  | failed
deriving DecidableEq, Repr

/-- A row of `load_state` in the ClickHouse backend. -/
structure CHRow where
  key : LoadKey
  data_format_version : String
  file_count : Nat
  row_count : Nat
  status : LStatus
  error_message : String
  started_at : Nat
  completed_at : Nat
  is_current : Bool
deriving DecidableEq, Repr

/-- `ClickHouseStateManager.start_load`: unconditional INSERT of a
`status='started'`, `is_current=0` row; never updates an existing row. -/
def chStartLoad (t : Nat) (k : LoadKey) (fmt : String) (fc : Nat)
    (s : List CHRow) : List CHRow :=
  s ++ [{ key := k, data_format_version := fmt, file_count := fc,
          row_count := 0, status := LStatus.started, error_message := "",
          started_at := t, completed_at := 0, is_current := false }]

/-- First ALTER UPDATE of `ClickHouseStateManager.complete_load`: clear
`is_current` on every currently-current row of the month. -/
def chDemoteCurrent (k : LoadKey) (s : List CHRow) : List CHRow :=
  s.map (fun r =>
    if monthOf r.key = monthOf k ∧ r.is_current = true then
      { r with is_current := false }
    else r)

/-- Second ALTER UPDATE of `complete_load`: mark every row with this key
completed, current, with the row count and completion time. -/
def chMarkCompleted (t : Nat) (k : LoadKey) (rc : Nat) (s : List CHRow) :
    List CHRow :=
  s.map (fun r =>
    if r.key = k then
      { r with status := LStatus.completed, completed_at := t,
               row_count := rc, is_current := true }
    else r)

/-- `ClickHouseStateManager.complete_load`: the two ALTER UPDATEs in source
order. -/
def chCompleteLoad (t : Nat) (k : LoadKey) (rc : Nat) (s : List CHRow) :
    List CHRow :=
  chMarkCompleted t k rc (chDemoteCurrent k s)

/-- `ClickHouseStateManager.fail_load`: set `status='failed'` and the error
message on every row with this key; `is_current` is left untouched. -/
def chFailLoad (k : LoadKey) (msg : String) (s : List CHRow) : List CHRow :=
  s.map (fun r =>
    if r.key = k then
      { r with status := LStatus.failed, error_message := msg }
    else r)

/-! Operation sequences over a state store. -/

/-- One state-store operation: the three mutating calls of the
`StateManager` interface. -/
inductive SOp where
  | startOp (k : LoadKey) (fmt : String) (fc : Nat)
  | completeOp (k : LoadKey) (rc : Nat)
  | failOp (k : LoadKey) (msg : String)
deriving DecidableEq, Repr

/-- One DuckDB step at clock time `t`. -/
def dbStepAt (t : Nat) (s : List DBRec) : SOp → List DBRec
  | SOp.startOp k fmt fc => dbStartLoad t k fmt fc s
  | SOp.completeOp k rc => dbCompleteLoad k rc s
  | SOp.failOp k msg => dbFailLoad k msg s

/-- Run a DuckDB operation sequence from state `s`, clock starting at `t`. -/
def dbRunFrom (t : Nat) (s : List DBRec) : List SOp → List DBRec
  | [] => s
  | op :: ops => dbRunFrom (t + 1) (dbStepAt t s op) ops

/-- Run a DuckDB operation sequence from the empty store. -/
def dbRun (ops : List SOp) : List DBRec :=
  dbRunFrom 0 [] ops

/-- One ClickHouse step at clock time `t`. -/
def chStepAt (t : Nat) (s : List CHRow) : SOp → List CHRow
  | SOp.startOp k fmt fc => chStartLoad t k fmt fc s
  | SOp.completeOp k rc => chCompleteLoad t k rc s
  | SOp.failOp k msg => chFailLoad k msg s

/-- Run a ClickHouse operation sequence from state `s`, clock at `t`. -/
def chRunFrom (t : Nat) (s : List CHRow) : List SOp → List CHRow
  | [] => s
  | op :: ops => chRunFrom (t + 1) (chStepAt t s op) ops

/-- Run a ClickHouse operation sequence from the empty store. -/
def chRun (ops : List SOp) : List CHRow :=
  chRunFrom 0 [] ops

/-! Invariants of the DuckDB store. -/

/-- Keys are pairwise distinct (the table's primary-key constraint). -/
def UniqKeys (s : List DBRec) : Prop :=
  s.Pairwise (fun a b => a.key ≠ b.key)

/-- Row-level predicate: current version of month `p`. -/
def curInMonth (p : String × String × String) (r : DBRec) : Bool :=
  decide (monthOf r.key = p) && r.current_version

/-- Per-row effect of the four statements of DuckDB `complete_load`. -/
def dbCompleteFn (k : LoadKey) (rc : Nat) (r : DBRec) : DBRec :=
  if r.key = k then
    { r with load_completed := true, current_version := true,
             row_count := some rc }
  else if monthOf r.key = monthOf k ∧ r.key.version_id ≠ k.version_id then
    { r with current_version := false }
  else r

theorem monthOf_eq_of_key_eq {a b : LoadKey} (h : a = b) :
    monthOf a = monthOf b := by rw [h]

theorem key_eq_iff (a b : LoadKey) :
    a = b ↔ monthOf a = monthOf b ∧ a.version_id = b.version_id := by
  constructor
  · intro h; exact ⟨monthOf_eq_of_key_eq h, by rw [h]⟩
  · rintro ⟨hm, hv⟩
    cases a; cases b
    simp only [monthOf, Prod.mk.injEq] at hm
    simp_all

/-- The four auto-committed statements of `complete_load` compose to a
single per-row update. -/
theorem dbCompleteLoad_eq_map (k : LoadKey) (rc : Nat) (s : List DBRec) :
    dbCompleteLoad k rc s = s.map (dbCompleteFn k rc) := by
  simp only [dbCompleteLoad, dbDemoteOthers, dbMarkCompleted, dbMarkCurrent,
    dbSetRowCount, List.map_map]
  apply List.map_congr_left
  intro r _
  simp only [Function.comp]
  by_cases hk : r.key = k
  · have hm : monthOf r.key = monthOf k := monthOf_eq_of_key_eq hk
    have hv : r.key.version_id = k.version_id := by rw [hk]
    simp [dbCompleteFn, hk, hv]
  · by_cases hd : monthOf r.key = monthOf k ∧ r.key.version_id ≠ k.version_id
    · simp [dbCompleteFn, hk, hd]
    · simp [dbCompleteFn, hk, hd]

theorem countP_key_le_one (k : LoadKey) {s : List DBRec} (h : UniqKeys s) :
    s.countP (fun r => decide (r.key = k)) ≤ 1 := by
  induction s with
  | nil => simp
  | cons a l ih =>
    rw [UniqKeys, List.pairwise_cons] at h
    rw [List.countP_cons]
    by_cases ha : a.key = k
    · have hz : l.countP (fun r => decide (r.key = k)) = 0 := by
        rw [List.countP_eq_zero]
        intro b hb
        have := h.1 b hb
        simp only [decide_eq_true_eq]
        rw [← ha]
        intro hc; exact this hc.symm
      simp [hz, ha]
    · have := ih h.2
      simp only [ha, decide_eq_true_eq, if_false]
      simpa using this

theorem uniqKeys_map {s : List DBRec} (f : DBRec → DBRec)
    (hf : ∀ r, (f r).key = r.key) (h : UniqKeys s) :
    UniqKeys (s.map f) := by
  rw [UniqKeys, List.pairwise_map]
  exact h.imp (by intro a b hab; rw [hf a, hf b]; exact hab)

theorem countP_cur_map {s : List DBRec} (f : DBRec → DBRec)
    (hf : ∀ r, (f r).key = r.key ∧ (f r).current_version = r.current_version)
    (p : String × String × String) :
    (s.map f).countP (curInMonth p) = s.countP (curInMonth p) := by
  rw [List.countP_map]
  apply List.countP_congr
  intro r _
  simp only [Function.comp, curInMonth, (hf r).1, (hf r).2]

/-- `start_load` preserves key uniqueness. -/
theorem dbStartLoad_uniq (t : Nat) (k : LoadKey) (fmt : String) (fc : Nat)
    {s : List DBRec} (h : UniqKeys s) :
    UniqKeys (dbStartLoad t k fmt fc s) := by
  unfold dbStartLoad
  split
  · apply uniqKeys_map _ _ h
    intro r
    by_cases hk : r.key = k <;> simp [dbStartFn, hk]
  · rename_i hany
    rw [UniqKeys, List.pairwise_append]
    refine ⟨h, List.pairwise_singleton _ _, ?_⟩
    intro a ha b hb
    simp only [List.mem_singleton] at hb
    subst hb
    have := List.any_eq_false.mp (Bool.of_not_eq_true hany) a ha
    simp only [decide_eq_true_eq] at this
    simpa using this

/-- `start_load` does not change which rows are current. -/
theorem dbStartLoad_countP_cur (t : Nat) (k : LoadKey) (fmt : String)
    (fc : Nat) (s : List DBRec) (p : String × String × String) :
    (dbStartLoad t k fmt fc s).countP (curInMonth p) =
      s.countP (curInMonth p) := by
  unfold dbStartLoad
  split
  · apply countP_cur_map
    intro r
    by_cases hk : r.key = k <;> simp [dbStartFn, hk]
  · rw [List.countP_append]
    simp [curInMonth]

/-- `fail_load` does not change which rows are current. -/
theorem dbFailLoad_countP_cur (k : LoadKey) (msg : String) (s : List DBRec)
    (p : String × String × String) :
    (dbFailLoad k msg s).countP (curInMonth p) = s.countP (curInMonth p) := by
  apply countP_cur_map
  intro r
  by_cases hk : r.key = k <;> simp [dbFailLoad, dbFailFn, hk]

/-- After `complete_load`, month `p` has at most one current row. -/
theorem dbCompleteLoad_countP_cur (k : LoadKey) (rc : Nat) {s : List DBRec}
    (hu : UniqKeys s) (hc : ∀ q, s.countP (curInMonth q) ≤ 1)
    (p : String × String × String) :
    (dbCompleteLoad k rc s).countP (curInMonth p) ≤ 1 := by
  rw [dbCompleteLoad_eq_map]
  by_cases hp : p = monthOf k
  · subst hp
    have : (s.map (dbCompleteFn k rc)).countP (curInMonth (monthOf k)) =
        s.countP (fun r => decide (r.key = k)) := by
      rw [List.countP_map]
      apply List.countP_congr
      intro r _
      simp only [Function.comp, curInMonth, dbCompleteFn]
      by_cases hk : r.key = k
      · simp [hk, monthOf_eq_of_key_eq hk]
      · by_cases hd : monthOf r.key = monthOf k ∧ r.key.version_id ≠ k.version_id
        · simp [hk, hd]
        · have hm : ¬ monthOf r.key = monthOf k := by
            intro hm
            apply hd
            refine ⟨hm, ?_⟩
            intro hv
            exact hk ((key_eq_iff r.key k).mpr ⟨hm, hv⟩)
          simp [hk, hd, hm]
    rw [this]
    exact countP_key_le_one k hu
  · have : (s.map (dbCompleteFn k rc)).countP (curInMonth p) =
        s.countP (curInMonth p) := by
      rw [List.countP_map]
      apply List.countP_congr
      intro r _
      simp only [Function.comp, curInMonth, dbCompleteFn]
      have hkp : monthOf k ≠ p := fun hh => hp hh.symm
      by_cases hk : r.key = k
      · have hm : monthOf r.key ≠ p := by
          rw [monthOf_eq_of_key_eq hk]
          exact hkp
        simp [hk, hm, hkp]
      · by_cases hd : monthOf r.key = monthOf k ∧ r.key.version_id ≠ k.version_id
        · have hm : monthOf r.key ≠ p := by
            rw [hd.1]
            exact hkp
          simp [hk, hd, hm, hkp]
        · simp [hk, hd]
    rw [this]
    exact hc p

/-- `complete_load` preserves key uniqueness. -/
theorem dbCompleteLoad_uniq (k : LoadKey) (rc : Nat) {s : List DBRec}
    (h : UniqKeys s) : UniqKeys (dbCompleteLoad k rc s) := by
  rw [dbCompleteLoad_eq_map]
  apply uniqKeys_map _ _ h
  intro r
  unfold dbCompleteFn
  by_cases hk : r.key = k
  · simp [hk]
  · by_cases hd : monthOf r.key = monthOf k ∧ r.key.version_id ≠ k.version_id
    · simp [hk, hd]
    · simp [hk, hd]

/-- `fail_load` preserves key uniqueness. -/
theorem dbFailLoad_uniq (k : LoadKey) (msg : String) {s : List DBRec}
    (h : UniqKeys s) : UniqKeys (dbFailLoad k msg s) := by
  apply uniqKeys_map _ _ h
  intro r
  by_cases hk : r.key = k <;> simp [dbFailFn, hk]

/-- Both DuckDB invariants hold along any run. -/
theorem dbRunFrom_inv (ops : List SOp) :
    ∀ t s, UniqKeys s → (∀ p, s.countP (curInMonth p) ≤ 1) →
    UniqKeys (dbRunFrom t s ops) ∧
      ∀ p, (dbRunFrom t s ops).countP (curInMonth p) ≤ 1 := by
  induction ops with
  | nil => intro t s hu hc; exact ⟨hu, hc⟩
  | cons op ops ih =>
    intro t s hu hc
    apply ih
    · cases op with
      | startOp k fmt fc => exact dbStartLoad_uniq t k fmt fc hu
      | completeOp k rc => exact dbCompleteLoad_uniq k rc hu
      | failOp k msg => exact dbFailLoad_uniq k msg hu
    · intro p
      cases op with
      | startOp k fmt fc => rw [dbStepAt, dbStartLoad_countP_cur]; exact hc p
      | completeOp k rc => exact dbCompleteLoad_countP_cur k rc hu hc p
      | failOp k msg => rw [dbStepAt, dbFailLoad_countP_cur]; exact hc p

/-! Invariants of the ClickHouse store.  Rows may repeat a key, so the best
statement at month granularity is that all current rows of a month carry
the same `version_id`. -/

/-- All current rows within one (vendor, export, billing_period) share one
`version_id`. -/
def CHCurAgree (s : List CHRow) : Prop :=
  ∀ r1 ∈ s, ∀ r2 ∈ s, r1.is_current = true → r2.is_current = true →
    monthOf r1.key = monthOf r2.key → r1.key.version_id = r2.key.version_id

/-- Per-row effect of the two ALTER UPDATEs of ClickHouse `complete_load`. -/
def chCompleteFn (t : Nat) (k : LoadKey) (rc : Nat) (r : CHRow) : CHRow :=
  if r.key = k then
    { r with status := LStatus.completed, completed_at := t,
             row_count := rc, is_current := true }
  else if monthOf r.key = monthOf k ∧ r.is_current = true then
    { r with is_current := false }
  else r

/-- The two statements of ClickHouse `complete_load` compose to a single
per-row update. -/
theorem chCompleteLoad_eq_map (t : Nat) (k : LoadKey) (rc : Nat)
    (s : List CHRow) :
    chCompleteLoad t k rc s = s.map (chCompleteFn t k rc) := by
  simp only [chCompleteLoad, chDemoteCurrent, chMarkCompleted, List.map_map]
  apply List.map_congr_left
  intro r _
  simp only [Function.comp]
  by_cases hk : r.key = k
  · by_cases hcur : r.is_current = true
    · simp [chCompleteFn, hk, hcur, monthOf_eq_of_key_eq hk]
    · simp [chCompleteFn, hk, hcur]
  · by_cases hd : monthOf r.key = monthOf k ∧ r.is_current = true
    · simp [chCompleteFn, hk, hd]
    · simp [chCompleteFn, hk, hd]

theorem chStartLoad_curAgree (t : Nat) (k : LoadKey) (fmt : String)
    (fc : Nat) {s : List CHRow} (h : CHCurAgree s) :
    CHCurAgree (chStartLoad t k fmt fc s) := by
  intro r1 h1 r2 h2 hc1 hc2 hm
  rw [chStartLoad, List.mem_append, List.mem_singleton] at h1 h2
  cases h1 with
  | inl h1 =>
    cases h2 with
    | inl h2 => exact h r1 h1 r2 h2 hc1 hc2 hm
    | inr h2 => rw [h2] at hc2; simp at hc2
  | inr h1 => rw [h1] at hc1; simp at hc1

theorem chCompleteLoad_curAgree (t : Nat) (k : LoadKey) (rc : Nat)
    {s : List CHRow} (h : CHCurAgree s) :
    CHCurAgree (chCompleteLoad t k rc s) := by
  rw [chCompleteLoad_eq_map]
  intro r1 h1 r2 h2 hc1 hc2 hm
  rw [List.mem_map] at h1 h2
  obtain ⟨a1, ha1, he1⟩ := h1
  obtain ⟨a2, ha2, he2⟩ := h2
  subst he1; subst he2
  -- analyse the per-row update on each side
  have main : ∀ a : CHRow, (chCompleteFn t k rc a).is_current = true →
      (a.key = k ∧ (chCompleteFn t k rc a).key = a.key) ∨
      (a.key ≠ k ∧ chCompleteFn t k rc a = a ∧ a.is_current = true ∧
        monthOf a.key ≠ monthOf k) := by
    intro a hc
    by_cases hk : a.key = k
    · left
      refine ⟨hk, ?_⟩
      simp [chCompleteFn, hk]
    · right
      by_cases hd : monthOf a.key = monthOf k ∧ a.is_current = true
      · exfalso
        simp [chCompleteFn, hk, hd] at hc
      · have he : chCompleteFn t k rc a = a := by
          simp [chCompleteFn, hk, hd]
        rw [he] at hc
        refine ⟨hk, he, hc, ?_⟩
        intro hmm
        exact hd ⟨hmm, hc⟩
  rcases main a1 hc1 with ⟨hk1, hkey1⟩ | ⟨hk1, he1, hcur1, hm1⟩ <;>
    rcases main a2 hc2 with ⟨hk2, hkey2⟩ | ⟨hk2, he2, hcur2, hm2⟩
  · rw [hkey1, hkey2, hk1, hk2]
  · exfalso
    rw [hkey1, hk1] at hm
    rw [he2] at hm
    exact hm2 hm.symm
  · exfalso
    rw [hkey2, hk2] at hm
    rw [he1] at hm
    exact hm1 hm
  · rw [he1] at hm ⊢
    rw [he2] at hm ⊢
    exact h a1 ha1 a2 ha2 hcur1 hcur2 hm

theorem chFailLoad_curAgree (k : LoadKey) (msg : String) {s : List CHRow}
    (h : CHCurAgree s) : CHCurAgree (chFailLoad k msg s) := by
  intro r1 h1 r2 h2 hc1 hc2 hm
  rw [chFailLoad, List.mem_map] at h1 h2
  obtain ⟨a1, ha1, he1⟩ := h1
  obtain ⟨a2, ha2, he2⟩ := h2
  have norm : ∀ a : CHRow,
      (if a.key = k then
        { a with status := LStatus.failed, error_message := msg } else a).key
        = a.key ∧
      (if a.key = k then
        { a with status := LStatus.failed, error_message := msg }
       else a).is_current = a.is_current := by
    intro a
    by_cases hk : a.key = k <;> simp [hk]
  subst he1; subst he2
  rw [(norm a1).1, (norm a2).1] at hm ⊢
  rw [(norm a1).2] at hc1
  rw [(norm a2).2] at hc2
  exact h a1 ha1 a2 ha2 hc1 hc2 hm

/-- The agreement invariant holds along any ClickHouse run. -/
theorem chRunFrom_curAgree (ops : List SOp) :
    ∀ t s, CHCurAgree s → CHCurAgree (chRunFrom t s ops) := by
  induction ops with
  | nil => intro t s h; exact h
  | cons op ops ih =>
    intro t s h
    apply ih
    cases op with
    | startOp k fmt fc => exact chStartLoad_curAgree t k fmt fc h
    | completeOp k rc => exact chCompleteLoad_curAgree t k rc h
    | failOp k msg => exact chFailLoad_curAgree k msg h

/-- Every DuckDB record with `is_current=true` has completed status. -/
abbrev DBCurCompleted (s : List DBRec) : Prop :=
  ∀ r ∈ s, r.current_version = true → r.load_completed = true

/-! Concrete inputs used by counterexamples and witnesses. -/

/-- A concrete load key. -/
def k0 : LoadKey :=
  { vendor := "aws", export_name := "acme", billing_period := "2024-01",
    version_id := "va" }

/-- A second key in the same month. -/
def k1 : LoadKey :=
  { vendor := "aws", export_name := "acme", billing_period := "2024-01",
    version_id := "vb" }

/-- start, start again on the same key, then complete: the ClickHouse
duplicate-row scenario. -/
def opsDup : List SOp :=
  [SOp.startOp k0 ("v1") 1, SOp.startOp k0 ("v1") 1, SOp.completeOp k0 5]

/-- A single successful load of `k0`. -/
def ops1 : List SOp :=
  [SOp.startOp k0 ("v1") 1, SOp.completeOp k0 5]

/-- start, complete, then fail on the same key. -/
def opsBad : List SOp :=
  [SOp.startOp k0 ("v1") 1, SOp.completeOp k0 5, SOp.failOp k0 ("boom")]

/-- The ClickHouse row produced by running `ops1`. -/
def rowA : CHRow :=
  { key := k0, data_format_version := "v1", file_count := 1, row_count := 5,
    status := LStatus.completed, error_message := "", started_at := 0,
    completed_at := 1, is_current := true }

/-- C1 counterexample: in the ClickHouse implementation, running
`start_load` twice on the same key and then `complete_load` leaves two
LoadRecords of the same (vendor, export, billing_period) with
`is_current=true`, refuting "at most one per (v, e, p) in every
state-store implementation". -/
theorem c1_counterexample :
    ((chRun opsDup).countP
      (fun r => decide (monthOf r.key = (("aws"), ("acme"), ("2024-01")))
        && r.is_current)) = 2 := by decide

/-- C1 (amended): after any operation sequence from the empty store, the
DuckDB implementation has at most one current record per (vendor, export,
billing_period); the ClickHouse implementation guarantees only that all
current rows of a month share a single version_id (repeated `start_load`
on one key makes duplicate rows that are all marked current together). -/
theorem c1_amended :
    (∀ (ops : List SOp) (p : String × String × String),
        (dbRun ops).countP (curInMonth p) ≤ 1) ∧
    (∀ (ops : List SOp), ∀ r1 ∈ chRun ops, ∀ r2 ∈ chRun ops,
        r1.is_current = true → r2.is_current = true →
        monthOf r1.key = monthOf r2.key →
        r1.key.version_id = r2.key.version_id) := by
  constructor
  · intro ops p
    exact (dbRunFrom_inv ops 0 [] (List.Pairwise.nil) (by simp)).2 p
  · intro ops
    apply chRunFrom_curAgree
    intro r1 h1
    exact absurd h1 (List.not_mem_nil r1)

/-- Witness for the C1 amended theorem at a concrete run. -/
theorem c1_amended_witness :
    rowA ∈ chRun ops1 ∧ rowA.is_current = true ∧
      rowA.key.version_id = rowA.key.version_id :=
  ⟨by decide, by decide,
    c1_amended.2 ops1 rowA (by decide) rowA (by decide) (by decide)
      (by decide) rfl⟩

/-- C2 counterexample: start, complete, then fail on one key leaves a
DuckDB record with `current_version=true` and `load_completed=false`,
refuting "is_current=true implies status=completed" as an unrestricted
reachable-state invariant. -/
theorem c2_counterexample :
    (dbRun opsBad).any
      (fun r => r.current_version && !r.load_completed) = true := by decide

/-- C2 (amended): "is_current=true implies status=completed" is preserved
by `complete_load` unconditionally, and by `start_load` and `fail_load`
provided the targeted key is not the currently-current record of its
month; the unrestricted claim fails because `fail_load` (and a rerun's
`start_load`) on a completed current record clears the completion flag
without clearing the current pointer. -/
theorem c2_amended :
    (∀ (k : LoadKey) (rc : Nat) (s : List DBRec), DBCurCompleted s →
        DBCurCompleted (dbCompleteLoad k rc s)) ∧
    (∀ (t : Nat) (k : LoadKey) (fmt : String) (fc : Nat) (s : List DBRec),
        DBCurCompleted s → (∀ r ∈ s, r.key = k → r.current_version = false) →
        DBCurCompleted (dbStartLoad t k fmt fc s)) ∧
    (∀ (k : LoadKey) (msg : String) (s : List DBRec), DBCurCompleted s →
        (∀ r ∈ s, r.key = k → r.current_version = false) →
        DBCurCompleted (dbFailLoad k msg s)) := by
  refine ⟨?_, ?_, ?_⟩
  · intro k rc s hs
    rw [dbCompleteLoad_eq_map]
    intro r' hr' hcur
    rw [List.mem_map] at hr'
    obtain ⟨a, ha, he⟩ := hr'
    subst he
    by_cases hk : a.key = k
    · have he2 : dbCompleteFn k rc a =
          { a with load_completed := true, current_version := true,
                   row_count := some rc } := by
        simp [dbCompleteFn, hk]
      rw [he2]
    · by_cases hd : monthOf a.key = monthOf k ∧ a.key.version_id ≠ k.version_id
      · have he2 : dbCompleteFn k rc a = { a with current_version := false } := by
          simp [dbCompleteFn, hk, hd]
        rw [he2] at hcur
        exact absurd hcur (by simp)
      · have he2 : dbCompleteFn k rc a = a := by
          simp [dbCompleteFn, hk, hd]
        rw [he2] at hcur ⊢
        exact hs a ha hcur
  · intro t k fmt fc s hs hside
    unfold dbStartLoad
    split
    · intro r' hr' hcur
      rw [List.mem_map] at hr'
      obtain ⟨a, ha, he⟩ := hr'
      subst he
      by_cases hk : a.key = k
      · have he2 : dbStartFn t k fc a =
            { a with load_timestamp := t, load_completed := false,
                     file_count := fc, error_message := none } := by
          simp [dbStartFn, hk]
        rw [he2] at hcur
        have hcv : a.current_version = true := hcur
        rw [hside a ha hk] at hcv
        exact absurd hcv (by simp)
      · have he2 : dbStartFn t k fc a = a := by
          simp [dbStartFn, hk]
        rw [he2] at hcur ⊢
        exact hs a ha hcur
    · intro r' hr' hcur
      rw [List.mem_append, List.mem_singleton] at hr'
      cases hr' with
      | inl h => exact hs r' h hcur
      | inr h => subst h; simp at hcur
  · intro k msg s hs hside
    intro r' hr' hcur
    rw [dbFailLoad, List.mem_map] at hr'
    obtain ⟨a, ha, he⟩ := hr'
    subst he
    by_cases hk : a.key = k
    · have he2 : dbFailFn k msg a =
          { a with load_completed := false, error_message := some msg } := by
        simp [dbFailFn, hk]
      rw [he2] at hcur
      have hcv : a.current_version = true := hcur
      rw [hside a ha hk] at hcv
      exact absurd hcv (by simp)
    · have he2 : dbFailFn k msg a = a := by
        simp [dbFailFn, hk]
      rw [he2] at hcur ⊢
      exact hs a ha hcur

/-- Witness for the C2 amended theorem: a fresh `start_load` of a second
version in a month whose current record belongs to another key. -/
theorem c2_amended_witness :
    DBCurCompleted (dbStartLoad 2 k1 ("v1") 1 (dbRun ops1)) :=
  c2_amended.2.1 2 k1 ("v1") 1 (dbRun ops1) (by decide) (by decide)

/-! C3: atomicity of `complete_load`. -/

/-- Load `k0` successfully, then start `k1` in the same month: the state in
which `complete_load(k1)` would run. -/
def ops2 : List SOp :=
  [SOp.startOp k0 ("v1") 1, SOp.completeOp k0 5, SOp.startOp k1 ("v1") 2]

/-- The record of `k0` after `ops2`: completed and current. -/
def rK0 : DBRec :=
  { key := k0, data_format_version := "v1", current_version := true,
    load_timestamp := 0, load_completed := true, row_count := some 5,
    file_count := 1, error_message := none }

/-- C3 counterexample: the DuckDB `complete_load` runs four separate
auto-committed statements with no transaction.  If execution stops after
the first statement (the demotion UPDATE), the store differs from the
pre-call state and the month has no current record at all: the prior
current pointer is not restored, refuting "the whole operation fails and
the state is left unchanged". -/
theorem c3_counterexample :
    dbDemoteOthers k1 (dbRun ops2) ≠ dbRun ops2 ∧
    (dbDemoteOthers k1 (dbRun ops2)).countP
      (curInMonth (("aws"), ("acme"), ("2024-01"))) = 0 ∧
    (dbRun ops2).countP
      (curInMonth (("aws"), ("acme"), ("2024-01"))) = 1 := by decide

/-- C3 (amended): when every statement succeeds, `complete_load` has the
specified combined effect — the keyed record becomes completed and current
with the given row_count, every other record of the month is demoted, and
records of other months are untouched; but the demotion performed by the
stand-alone first statement already takes effect on its own, so a failure
of a later statement leaves it committed rather than rolled back. -/
theorem c3_amended :
    (∀ (k : LoadKey) (rc : Nat) (s : List DBRec), ∀ r ∈ s,
      (r.key = k →
        { r with load_completed := true, current_version := true,
                 row_count := some rc } ∈ dbCompleteLoad k rc s) ∧
      (r.key ≠ k → monthOf r.key = monthOf k →
        { r with current_version := false } ∈ dbCompleteLoad k rc s) ∧
      (monthOf r.key ≠ monthOf k → r ∈ dbCompleteLoad k rc s)) ∧
    (∀ (k : LoadKey) (s : List DBRec), ∀ r ∈ dbDemoteOthers k s,
      monthOf r.key = monthOf k → r.key.version_id ≠ k.version_id →
      r.current_version = false) := by
  constructor
  · intro k rc s r hr
    rw [dbCompleteLoad_eq_map]
    refine ⟨?_, ?_, ?_⟩
    · intro hk
      have he2 : dbCompleteFn k rc r =
          { r with load_completed := true, current_version := true,
                   row_count := some rc } := by
        simp [dbCompleteFn, hk]
      rw [← he2]
      exact List.mem_map_of_mem _ hr
    · intro hk hm
      have hv : r.key.version_id ≠ k.version_id := by
        intro hv
        exact hk ((key_eq_iff r.key k).mpr ⟨hm, hv⟩)
      have he2 : dbCompleteFn k rc r = { r with current_version := false } := by
        simp [dbCompleteFn, hk, hm, hv]
      rw [← he2]
      exact List.mem_map_of_mem _ hr
    · intro hm
      have hk : r.key ≠ k := by
        intro hk
        exact hm (monthOf_eq_of_key_eq hk)
      have he2 : dbCompleteFn k rc r = r := by
        simp [dbCompleteFn, hk, hm]
      rw [← he2]
      exact List.mem_map_of_mem _ hr
  · intro k s r hr hm hv
    rw [dbDemoteOthers, List.mem_map] at hr
    obtain ⟨a, ha, he⟩ := hr
    have hkey : a.key = r.key := by
      rw [← he]
      by_cases hd : monthOf a.key = monthOf k ∧ a.key.version_id ≠ k.version_id
      · simp [hd]
      · simp [hd]
    have hak : monthOf a.key = monthOf k := by rw [hkey]; exact hm
    have hav : a.key.version_id ≠ k.version_id := by rw [hkey]; exact hv
    rw [← he, if_pos ⟨hak, hav⟩]

/-- Witness for the C3 amended theorem: completing `k1` demotes the
current record of `k0` in the same month. -/
theorem c3_amended_witness :
    rK0 ∈ dbRun ops2 ∧
      { rK0 with current_version := false } ∈ dbCompleteLoad k1 3 (dbRun ops2) :=
  ⟨by decide,
    ((c3_amended.1 k1 3 (dbRun ops2) rK0 (by decide)).2.1 (by decide)
      (by decide))⟩

/-! C4: `start_load` as an upsert. -/

/-- C4 counterexample: the ClickHouse `start_load` is an unconditional
INSERT; running it twice with the same key leaves two rows with that key,
refuting "no second record is created" for that implementation. -/
theorem c4_counterexample :
    (chRun [SOp.startOp k0 ("v1") 1, SOp.startOp k0 ("v1") 1]).countP
      (fun r => decide (r.key = k0)) = 2 := by decide

/-- C4 (amended): the DuckDB `start_load` is the specified upsert — with
an existing keyed row it updates in place (status back to started via
`load_completed=FALSE`, `error_message` cleared, `started_at` updated,
same row count of records), otherwise it appends a fresh
`status=started`, `is_current=false` row; the ClickHouse `start_load`
instead always appends a new started row even when the key exists. -/
theorem c4_amended :
    (∀ (t : Nat) (k : LoadKey) (fmt : String) (fc : Nat) (s : List DBRec),
      (∃ r ∈ s, r.key = k) →
      (dbStartLoad t k fmt fc s).length = s.length ∧
      ∀ r ∈ s,
        (r.key = k →
          { r with load_timestamp := t, load_completed := false,
                   file_count := fc, error_message := none }
            ∈ dbStartLoad t k fmt fc s) ∧
        (r.key ≠ k → r ∈ dbStartLoad t k fmt fc s)) ∧
    (∀ (t : Nat) (k : LoadKey) (fmt : String) (fc : Nat) (s : List DBRec),
      (¬ ∃ r ∈ s, r.key = k) →
      dbStartLoad t k fmt fc s =
        s ++ [{ key := k, data_format_version := fmt,
                current_version := false, load_timestamp := t,
                load_completed := false, row_count := none,
                file_count := fc, error_message := none }]) ∧
    (∀ (t : Nat) (k : LoadKey) (fmt : String) (fc : Nat) (s : List CHRow),
      chStartLoad t k fmt fc s =
        s ++ [{ key := k, data_format_version := fmt, file_count := fc,
                row_count := 0, status := LStatus.started,
                error_message := "", started_at := t, completed_at := 0,
                is_current := false }] ∧
      (chStartLoad t k fmt fc s).length = s.length + 1) := by
  refine ⟨?_, ?_, ?_⟩
  · intro t k fmt fc s hex
    have hany : s.any (fun r => decide (r.key = k)) = true := by
      obtain ⟨r, hr, hk⟩ := hex
      rw [List.any_eq_true]
      exact ⟨r, hr, by simp [hk]⟩
    rw [dbStartLoad, if_pos hany]
    refine ⟨List.length_map _ _, ?_⟩
    intro r hr
    constructor
    · intro hk
      have he2 : dbStartFn t k fc r =
          { r with load_timestamp := t, load_completed := false,
                   file_count := fc, error_message := none } := by
        simp [dbStartFn, hk]
      rw [← he2]
      exact List.mem_map_of_mem _ hr
    · intro hk
      have he2 : dbStartFn t k fc r = r := by
        simp [dbStartFn, hk]
      rw [← he2]
      exact List.mem_map_of_mem _ hr
  · intro t k fmt fc s hex
    have hany : s.any (fun r => decide (r.key = k)) = false := by
      rw [List.any_eq_false]
      intro r hr
      simp only [decide_eq_true_eq]
      intro hk
      exact hex ⟨r, hr, hk⟩
    rw [dbStartLoad, if_neg (by simp [hany])]
  · intro t k fmt fc s
    exact ⟨rfl, by simp [chStartLoad]⟩

/-- Witness for the C4 amended theorem: restarting `k0` on a store where
it is already loaded updates the existing record in place. -/
theorem c4_amended_witness :
    (dbStartLoad 5 k0 ("v1") 3 (dbRun ops1)).length = (dbRun ops1).length ∧
      { rK0 with load_timestamp := 5, load_completed := false,
                 file_count := 3, error_message := none }
        ∈ dbStartLoad 5 k0 ("v1") 3 (dbRun ops1) :=
  ⟨(c4_amended.1 5 k0 ("v1") 3 (dbRun ops1) ⟨rK0, by decide, by decide⟩).1,
    ((c4_amended.1 5 k0 ("v1") 3 (dbRun ops1)
      ⟨rK0, by decide, by decide⟩).2 rK0 (by decide)).1 (by decide)⟩

/-! C10: `fail_load` on an absent key. -/

/-- Does this operation start a load of key `k`? -/
def opStartsKey (k : LoadKey) : SOp → Prop
  | SOp.startOp k2 _ _ => k2 = k
  | SOp.completeOp _ _ => False
  | SOp.failOp _ _ => False

theorem dbStepAt_keys (t : Nat) (s : List DBRec) (op : SOp) :
    ∀ r ∈ dbStepAt t s op,
      (∃ b ∈ s, b.key = r.key) ∨ opStartsKey r.key op := by
  intro r hr
  cases op with
  | startOp k fmt fc =>
    rw [dbStepAt, dbStartLoad] at hr
    split at hr
    · rw [List.mem_map] at hr
      obtain ⟨a, ha, he⟩ := hr
      left
      refine ⟨a, ha, ?_⟩
      rw [← he]
      by_cases hk : a.key = k <;> simp [dbStartFn, hk]
    · rw [List.mem_append, List.mem_singleton] at hr
      cases hr with
      | inl h => exact Or.inl ⟨r, h, rfl⟩
      | inr h => right; rw [h]; rfl
  | completeOp k rc =>
    rw [dbStepAt, dbCompleteLoad_eq_map, List.mem_map] at hr
    obtain ⟨a, ha, he⟩ := hr
    left
    refine ⟨a, ha, ?_⟩
    rw [← he]
    unfold dbCompleteFn
    by_cases hk : a.key = k
    · simp [hk]
    · by_cases hd : monthOf a.key = monthOf k ∧ a.key.version_id ≠ k.version_id
      · simp [hk, hd]
      · simp [hk, hd]
  | failOp k msg =>
    rw [dbStepAt, dbFailLoad, List.mem_map] at hr
    obtain ⟨a, ha, he⟩ := hr
    left
    refine ⟨a, ha, ?_⟩
    rw [← he]
    by_cases hk : a.key = k <;> simp [dbFailFn, hk]

theorem dbRunFrom_keys (ops : List SOp) :
    ∀ t s, ∀ r ∈ dbRunFrom t s ops,
      (∃ b ∈ s, b.key = r.key) ∨ ∃ op ∈ ops, opStartsKey r.key op := by
  induction ops with
  | nil => intro t s r hr; exact Or.inl ⟨r, hr, rfl⟩
  | cons op ops ih =>
    intro t s r hr
    rcases ih (t + 1) (dbStepAt t s op) r hr with ⟨b, hb, hk⟩ | ⟨op2, hop2, hk⟩
    · rcases dbStepAt_keys t s op b hb with ⟨c, hc, hck⟩ | hstart
      · exact Or.inl ⟨c, hc, by rw [hck, hk]⟩
      · right
        refine ⟨op, List.mem_cons_self op ops, ?_⟩
        cases op with
        | startOp k2 fmt fc => rw [← hk]; exact hstart
        | completeOp k2 rc => exact hstart
        | failOp k2 msg => exact hstart
    · exact Or.inr ⟨op2, List.mem_cons_of_mem op hop2, hk⟩

/-- C10: `fail_load` with a key that has no record is a silent no-op (the
UPDATE matches nothing, so the store is unchanged and nothing is raised in
the model, the source statement having no failure path of its own), and
every record reachable from the empty store — in particular any record
carrying an error_message — belongs to a key passed to some earlier
`start_load`. -/
theorem c10_fail_load_noop :
    (∀ (k : LoadKey) (msg : String) (s : List DBRec),
      (∀ r ∈ s, r.key ≠ k) → dbFailLoad k msg s = s) ∧
    (∀ (ops : List SOp), ∀ r ∈ dbRun ops,
      ∃ op ∈ ops, opStartsKey r.key op) ∧
    (∀ (ops : List SOp), ∀ r ∈ dbRun ops, r.error_message ≠ none →
      ∃ op ∈ ops, opStartsKey r.key op) := by
  refine ⟨?_, ?_, ?_⟩
  · intro k msg s hne
    have hid : s.map (dbFailFn k msg) = s.map id := by
      apply List.map_congr_left
      intro r hr
      simp [dbFailFn, hne r hr]
    rw [dbFailLoad, hid, List.map_id]
  · intro ops r hr
    rcases dbRunFrom_keys ops 0 [] r hr with ⟨b, hb, _⟩ | h
    · exact absurd hb (List.not_mem_nil b)
    · exact h
  · intro ops r hr _
    rcases dbRunFrom_keys ops 0 [] r hr with ⟨b, hb, _⟩ | h
    · exact absurd hb (List.not_mem_nil b)
    · exact h

/-- Witness for C10 at a concrete store: failing an absent key leaves the
store unchanged, and the single record of `ops1` stems from its
`start_load`. -/
theorem c10_fail_load_noop_witness :
    dbFailLoad k1 ("x") (dbRun ops1) = dbRun ops1 :=
  c10_fail_load_noop.1 k1 ("x") (dbRun ops1) (by decide)

/-! AWS manifest locator (`src/pipelines/aws/manifest.py`).

Regex patterns are embedded as deterministic matchers over `List Char`:
the v1 pattern `{prefix}/{export}/\d{8}-\d{8}/{export}-Manifest\.json` is a
concatenation of fixed literals and fixed-length digit runs, so matching
needs no backtracking.  `re.match` anchors at the start of the key only:
trailing characters after the pattern are accepted.  Python's `\d` is
modelled as the ASCII digit class. -/

/-- Consume an exact literal from the front; returns the remainder. -/
def stripLit : List Char → List Char → Option (List Char)
  | [], s => some s
  | _ :: _, [] => none
  | c :: l, x :: s => if x = c then stripLit l s else none

/-- Consume exactly `n` digits from the front; returns the remainder. -/
def stripDigitsN : Nat → List Char → Option (List Char)
  | 0, s => some s
  | _ + 1, [] => none
  | n + 1, c :: s => if c.isDigit then stripDigitsN n s else none

/-- Consume exactly `n` digits from the front; returns them and the
remainder. -/
def takeDigits : Nat → List Char → Option (List Char × List Char)
  | 0, s => some ([], s)
  | _ + 1, [] => none
  | n + 1, c :: s =>
    if c.isDigit then (takeDigits n s).map (fun p => (c :: p.1, p.2)) else none

/-- `ManifestLocator._get_v1_pattern` matched with `re.match`: the
remainder of the key after the anchored pattern, if it matches. -/
def v1Rem (pfx exp : String) (key : List Char) : Option (List Char) :=
  (stripLit (pfx.data ++ '/' :: (exp.data ++ ['/'])) key).bind (fun r1 =>
  (stripDigitsN 8 r1).bind (fun r2 =>
  (stripLit ['-'] r2).bind (fun r3 =>
  (stripDigitsN 8 r3).bind (fun r4 =>
  stripLit ('/' :: (exp.data ++ ("-Manifest.json").data)) r4))))

/-- `re.match(self._get_v1_pattern(), key)` is truthy. -/
def v1MatchB (pfx exp key : String) : Bool :=
  (v1Rem pfx exp key.data).isSome

/-- Modelled from the spec's words (§4.1, §6): the key matches the v1
schema `prefix/export/YYYYMMDD-YYYYMMDD/export-Manifest.json` exactly,
with no extra leading or trailing characters. -/
def v1MatchExactSpec (pfx exp key : String) : Bool :=
  match v1Rem pfx exp key.data with
  | some [] => true
  | _ => false

/-- `ManifestLocator._get_v2_pattern` matched with `re.match`. -/
def v2Rem (pfx exp : String) (key : List Char) : Option (List Char) :=
  (stripLit (pfx.data ++ '/' ::
      (exp.data ++ '/' :: ("metadata/BILLING_PERIOD=").data)) key).bind (fun r1 =>
  (stripDigitsN 4 r1).bind (fun r2 =>
  (stripLit ['-'] r2).bind (fun r3 =>
  (stripDigitsN 2 r3).bind (fun r4 =>
  stripLit ('/' :: (exp.data ++ ("-Manifest.json").data)) r4))))

/-- `re.match(self._get_v2_pattern(), key)` is truthy. -/
def v2MatchB (pfx exp key : String) : Bool :=
  (v2Rem pfx exp key.data).isSome

/-- One attempt of `re.search(r'/(\d{8})-(\d{8})/', key)` at the current
position: the first capture group on success. -/
def dateSegAt (s : List Char) : Option (List Char) :=
  match s with
  | '/' :: r1 =>
    match takeDigits 8 r1 with
    | some (d1, r2) =>
      match r2 with
      | '-' :: r3 =>
        match takeDigits 8 r3 with
        | some (_, r4) =>
          match r4 with
          | '/' :: _ => some d1
          | _ => none
        | none => none
      | _ => none
    | none => none
  | _ => none

/-- `re.search(r'/(\d{8})-(\d{8})/', key)`: leftmost match's group 1. -/
def searchDate : List Char → Option (List Char)
  | [] => none
  | c :: rest =>
    match dateSegAt (c :: rest) with
    | some d => some d
    | none => searchDate rest

/-- One attempt of `re.search(r'BILLING_PERIOD=(\d{4}-\d{2})', key)` at
the current position. -/
def bpSegAt (s : List Char) : Option (List Char) :=
  match stripLit (("BILLING_PERIOD=").data) s with
  | some r1 =>
    match takeDigits 4 r1 with
    | some (y, r2) =>
      match r2 with
      | '-' :: r3 =>
        match takeDigits 2 r3 with
        | some (mth, _) => some (y ++ '-' :: mth)
        | none => none
      | _ => none
    | none => none
  | none => none

/-- `re.search(r'BILLING_PERIOD=(\d{4}-\d{2})', key)`: leftmost group 1. -/
def searchBP : List Char → Option (List Char)
  | [] => none
  | c :: rest =>
    match bpSegAt (c :: rest) with
    | some d => some d
    | none => searchBP rest

/-- The `ManifestFile` dataclass (without the fetched body). -/
structure ManifestFile where
  bucket : String
  key : String
  billing_period : String
  version : String
deriving DecidableEq, Repr

/-- `ManifestLocator._parse_manifest_key`: extract billing period metadata
from a matched key.  v1 takes the first 4 digits of the leftmost date
group as year and the next 2 as month. -/
def parseManifestKey (cur bucket key : String) : Option ManifestFile :=
  if cur = "v1" then
    match searchDate key.data with
    | some d =>
      some { bucket := bucket, key := key,
             billing_period := String.mk (d.take 4 ++ '-' :: (d.drop 4).take 2),
             version := "v1" }
    | none => none
  else
    match searchBP key.data with
    | some bp =>
      some { bucket := bucket, key := key, billing_period := String.mk bp,
             version := "v2" }
    | none => none

/-- `ManifestLocator._is_in_date_range`: month-granular inclusive bounds
by string comparison on `YYYY-MM`; a missing bound imposes nothing. -/
def inDateRange (bp : String) (sd ed : Option String) : Bool :=
  (match sd with
   | none => true
   | some d => !(decide (bp < d))) &&
  (match ed with
   | none => true
   | some d => !(decide (d < bp)))

/-- Stable insertion used to model Python's stable `sorted(...)` keyed on
`billing_period`. -/
def insertBP (m : ManifestFile) : List ManifestFile → List ManifestFile
  | [] => [m]
  | x :: xs =>
    if x.billing_period < m.billing_period then x :: insertBP m xs
    else m :: x :: xs

/-- `sorted(manifests, key=lambda m: m.billing_period)`: stable sort. -/
def sortByBP : List ManifestFile → List ManifestFile
  | [] => []
  | x :: xs => insertBP x (sortByBP xs)

/-- The body of `ManifestLocator.list_manifests` after the S3 pagination:
keep keys matching the pattern, parse them, filter by date range, sort by
billing period ascending. -/
def listManifestsWith (matchB : String → Bool)
    (parse : String → Option ManifestFile) (sd ed : Option String)
    (keys : List String) : List ManifestFile :=
  sortByBP ((keys.filter matchB).filterMap (fun key =>
    (parse key).bind (fun m =>
      if inDateRange m.billing_period sd ed = true then some m else none)))

/-- `ManifestLocator.list_manifests` for a configured
(bucket, prefix, export_name, cur_version). -/
def listManifests (bucket pfx exp cur : String) (sd ed : Option String)
    (keys : List String) : List ManifestFile :=
  listManifestsWith
    (fun key => if cur = "v1" then v1MatchB pfx exp key else v2MatchB pfx exp key)
    (fun key => parseManifestKey cur bucket key) sd ed keys

theorem mem_insertBP (a m : ManifestFile) (l : List ManifestFile) :
    a ∈ insertBP m l ↔ a = m ∨ a ∈ l := by
  induction l with
  | nil => simp [insertBP]
  | cons x xs ih =>
    rw [insertBP]
    split
    · rw [List.mem_cons, ih, List.mem_cons]
      tauto
    · simp [List.mem_cons]

theorem mem_sortByBP (a : ManifestFile) (l : List ManifestFile) :
    a ∈ sortByBP l ↔ a ∈ l := by
  induction l with
  | nil => simp [sortByBP]
  | cons x xs ih =>
    rw [sortByBP, mem_insertBP, ih, List.mem_cons]

theorem sorted_insertBP (m : ManifestFile) {l : List ManifestFile}
    (h : l.Pairwise (fun a b => a.billing_period ≤ b.billing_period)) :
    (insertBP m l).Pairwise (fun a b => a.billing_period ≤ b.billing_period) := by
  induction l with
  | nil => simp [insertBP]
  | cons x xs ih =>
    rw [List.pairwise_cons] at h
    rw [insertBP]
    split
    · rename_i hlt
      rw [List.pairwise_cons]
      constructor
      · intro b hb
        rw [mem_insertBP] at hb
        cases hb with
        | inl hb => rw [hb]; exact le_of_lt hlt
        | inr hb => exact h.1 b hb
      · exact ih h.2
    · rename_i hnlt
      rw [List.pairwise_cons]
      constructor
      · intro b hb
        rw [List.mem_cons] at hb
        cases hb with
        | inl hb => rw [hb]; exact le_of_not_lt hnlt
        | inr hb => exact le_trans (le_of_not_lt hnlt) (h.1 b hb)
      · rw [List.pairwise_cons]
        exact h

theorem sorted_sortByBP (l : List ManifestFile) :
    (sortByBP l).Pairwise (fun a b => a.billing_period ≤ b.billing_period) := by
  induction l with
  | nil => simp [sortByBP]
  | cons x xs ih => exact sorted_insertBP x ih

theorem inDateRange_iff (bp : String) (sd ed : Option String) :
    inDateRange bp sd ed = true ↔
      (∀ d, sd = some d → d ≤ bp) ∧ (∀ d, ed = some d → bp ≤ d) := by
  cases sd with
  | none =>
    cases ed with
    | none => simp [inDateRange]
    | some e => simp [inDateRange, not_lt]
  | some d =>
    cases ed with
    | none => simp [inDateRange, not_lt]
    | some e => simp [inDateRange, not_lt, and_comm]

/-- C5: `list_manifests` returns exactly the parses of the matching keys
whose billing period lies within the optional month bounds inclusive (a
missing bound imposing no constraint), sorted ascending by billing
period. -/
theorem c5_list_manifests :
    ∀ (bucket pfx exp cur : String) (sd ed : Option String)
      (keys : List String),
      (∀ m, m ∈ listManifests bucket pfx exp cur sd ed keys ↔
        ∃ key ∈ keys,
          (if cur = "v1" then v1MatchB pfx exp key
           else v2MatchB pfx exp key) = true ∧
          parseManifestKey cur bucket key = some m ∧
          (∀ d, sd = some d → d ≤ m.billing_period) ∧
          (∀ d, ed = some d → m.billing_period ≤ d)) ∧
      (listManifests bucket pfx exp cur sd ed keys).Pairwise
        (fun a b => a.billing_period ≤ b.billing_period) := by
  intro bucket pfx exp cur sd ed keys
  constructor
  · intro m
    rw [listManifests, listManifestsWith, mem_sortByBP, List.mem_filterMap]
    constructor
    · rintro ⟨key, hkey, hparse⟩
      rw [List.mem_filter] at hkey
      rw [Option.bind_eq_some] at hparse
      obtain ⟨m2, hp, hif⟩ := hparse
      by_cases hir : inDateRange m2.billing_period sd ed = true
      · rw [if_pos hir] at hif
        injection hif with hm
        subst hm
        have hr := (inDateRange_iff m2.billing_period sd ed).mp hir
        exact ⟨key, hkey.1, hkey.2, hp, hr.1, hr.2⟩
      · rw [if_neg hir] at hif
        exact absurd hif (by simp)
    · rintro ⟨key, hkey, hmatch, hparse, hlo, hhi⟩
      refine ⟨key, List.mem_filter.mpr ⟨hkey, hmatch⟩, ?_⟩
      rw [Option.bind_eq_some]
      exact ⟨m, hparse,
        if_pos ((inDateRange_iff m.billing_period sd ed).mpr ⟨hlo, hhi⟩)⟩
  · rw [listManifests, listManifestsWith]
    exact sorted_sortByBP _

theorem stripLit_eq_some (lit : List Char) :
    ∀ s r, stripLit lit s = some r ↔ s = lit ++ r := by
  induction lit with
  | nil =>
    intro s r
    simp [stripLit, eq_comm]
  | cons c l ih =>
    intro s r
    cases s with
    | nil => simp [stripLit]
    | cons x s2 =>
      by_cases hx : x = c
      · simp [stripLit, hx, ih]
      · simp [stripLit, hx]

theorem stripDigitsN_eq_some :
    ∀ (n : Nat) (s r : List Char), stripDigitsN n s = some r ↔
      ∃ d, s = d ++ r ∧ d.length = n ∧ ∀ c ∈ d, c.isDigit = true := by
  intro n
  induction n with
  | zero =>
    intro s r
    constructor
    · intro h
      rw [stripDigitsN] at h
      injection h with h
      exact ⟨[], by simp [h], rfl, by simp⟩
    · rintro ⟨d, hs, hl, _⟩
      have hd : d = [] := List.length_eq_zero.mp hl
      subst hd
      simp at hs
      rw [stripDigitsN, hs]
  | succ n ih =>
    intro s r
    cases s with
    | nil =>
      constructor
      · intro h
        exact absurd h (by rw [stripDigitsN]; simp)
      · rintro ⟨d, hs, hl, _⟩
        cases d with
        | nil => simp at hl
        | cons e d2 => simp at hs
    | cons c s2 =>
      by_cases hc : c.isDigit
      · rw [stripDigitsN, if_pos hc, ih]
        constructor
        · rintro ⟨d, hs, hl, hdig⟩
          refine ⟨c :: d, by simp [hs], by simp [hl], ?_⟩
          intro x hx
          rcases List.mem_cons.mp hx with hx | hx
          · rw [hx]; exact hc
          · exact hdig x hx
        · rintro ⟨d, hs, hl, hdig⟩
          cases d with
          | nil => simp at hl
          | cons e d2 =>
            rw [List.cons_append] at hs
            injection hs with he hs2
            refine ⟨d2, hs2, by simpa using hl, ?_⟩
            intro x hx
            exact hdig x (List.mem_cons_of_mem e hx)
      · rw [stripDigitsN, if_neg hc]
        constructor
        · intro h
          exact absurd h (by simp)
        · rintro ⟨d, hs, hl, hdig⟩
          cases d with
          | nil => simp at hl
          | cons e d2 =>
            rw [List.cons_append] at hs
            injection hs with he hs2
            refine absurd ?_ hc
            rw [he]
            exact hdig e (List.mem_cons_self e d2)

theorem takeDigits_of (n : Nat) (d r : List Char) (hl : d.length = n)
    (hdig : ∀ c ∈ d, c.isDigit = true) :
    takeDigits n (d ++ r) = some (d, r) := by
  induction d generalizing n with
  | nil =>
    subst hl
    simp [takeDigits]
  | cons c d2 ih =>
    subst hl
    rw [List.cons_append]
    simp only [takeDigits]
    rw [if_pos (hdig c (List.mem_cons_self c d2)),
      ih d2.length rfl (fun x hx => hdig x (List.mem_cons_of_mem c hx))]
    rfl

theorem v1Rem_eq_some (pfx exp : String) (key rest : List Char) :
    v1Rem pfx exp key = some rest ↔
      ∃ d1 d2,
        key = pfx.data ++ ('/' :: (exp.data ++ ('/' :: (d1 ++ ('-' ::
          (d2 ++ ('/' :: (exp.data ++ (("-Manifest.json").data ++
            rest))))))))) ∧
        d1.length = 8 ∧ (∀ c ∈ d1, c.isDigit = true) ∧
        d2.length = 8 ∧ (∀ c ∈ d2, c.isDigit = true) := by
  rw [v1Rem]
  constructor
  · intro h
    rw [Option.bind_eq_some] at h
    obtain ⟨r1, h1, h⟩ := h
    rw [Option.bind_eq_some] at h
    obtain ⟨r2, h2, h⟩ := h
    rw [Option.bind_eq_some] at h
    obtain ⟨r3, h3, h⟩ := h
    rw [Option.bind_eq_some] at h
    obtain ⟨r4, h4, h5⟩ := h
    rw [stripLit_eq_some] at h1 h3 h5
    rw [stripDigitsN_eq_some] at h2 h4
    obtain ⟨d1, hd1, hl1, hg1⟩ := h2
    obtain ⟨d2, hd2, hl2, hg2⟩ := h4
    refine ⟨d1, d2, ?_, hl1, hg1, hl2, hg2⟩
    subst h1; subst hd1; subst h3; subst hd2; subst h5
    simp [List.append_assoc]
  · rintro ⟨d1, d2, hkey, hl1, hg1, hl2, hg2⟩
    rw [Option.bind_eq_some]
    refine ⟨d1 ++ ('-' :: (d2 ++ ('/' :: (exp.data ++
      (("-Manifest.json").data ++ rest))))), ?_, ?_⟩
    · rw [stripLit_eq_some, hkey]
      simp [List.append_assoc]
    · rw [Option.bind_eq_some]
      refine ⟨'-' :: (d2 ++ ('/' :: (exp.data ++ (("-Manifest.json").data ++
        rest)))), ?_, ?_⟩
      · rw [stripDigitsN_eq_some]
        exact ⟨d1, rfl, hl1, hg1⟩
      · rw [Option.bind_eq_some]
        refine ⟨d2 ++ ('/' :: (exp.data ++ (("-Manifest.json").data ++
          rest))), ?_, ?_⟩
        · rw [stripLit_eq_some]
          rfl
        · rw [Option.bind_eq_some]
          refine ⟨'/' :: (exp.data ++ (("-Manifest.json").data ++ rest)),
            ?_, ?_⟩
          · rw [stripDigitsN_eq_some]
            exact ⟨d2, rfl, hl2, hg2⟩
          · rw [stripLit_eq_some]
            simp

theorem dateSegAt_hit (d1 d2 b : List Char) (hl1 : d1.length = 8)
    (hg1 : ∀ c ∈ d1, c.isDigit = true) (hl2 : d2.length = 8)
    (hg2 : ∀ c ∈ d2, c.isDigit = true) :
    dateSegAt ('/' :: (d1 ++ ('-' :: (d2 ++ ('/' :: b))))) = some d1 := by
  have h1 : takeDigits 8 (d1 ++ ('-' :: (d2 ++ ('/' :: b)))) =
      some (d1, '-' :: (d2 ++ ('/' :: b))) := takeDigits_of 8 d1 _ hl1 hg1
  have h2 : takeDigits 8 (d2 ++ ('/' :: b)) = some (d2, '/' :: b) :=
    takeDigits_of 8 d2 _ hl2 hg2
  simp [dateSegAt, h1, h2]

theorem searchDate_isSome (a d1 d2 b : List Char) (hl1 : d1.length = 8)
    (hg1 : ∀ c ∈ d1, c.isDigit = true) (hl2 : d2.length = 8)
    (hg2 : ∀ c ∈ d2, c.isDigit = true) :
    (searchDate (a ++ ('/' :: (d1 ++ ('-' :: (d2 ++
      ('/' :: b))))))).isSome = true := by
  induction a with
  | nil =>
    rw [List.nil_append]
    simp [searchDate, dateSegAt_hit d1 d2 b hl1 hg1 hl2 hg2]
  | cons c a2 ih =>
    rw [List.cons_append]
    cases h : dateSegAt (c :: (a2 ++ ('/' :: (d1 ++ ('-' :: (d2 ++
        ('/' :: b))))))) with
    | some d => simp [searchDate, h]
    | none =>
      rw [show searchDate (c :: (a2 ++ ('/' :: (d1 ++ ('-' :: (d2 ++
          ('/' :: b))))))) = searchDate (a2 ++ ('/' :: (d1 ++ ('-' ::
          (d2 ++ ('/' :: b)))))) from by simp [searchDate, h]]
      exact ih

/-- C6 counterexample: the source matches keys with `re.match` and the
pattern carries no end anchor, so a key with extra trailing characters
after `-Manifest.json` is still accepted, refuting "matches the schema
exactly (no extra leading or trailing characters)". -/
theorem c6_counterexample :
    v1MatchB ("cur") ("acme")
        ("cur/acme/20240101-20240201/acme-Manifest.jsonX") = true ∧
      v1MatchExactSpec ("cur") ("acme")
        ("cur/acme/20240101-20240201/acme-Manifest.jsonX") = false := by
  decide

/-- C6 (amended): a listed key is accepted as an AWS v1 manifest iff the
schema `prefix/export/DDDDDDDD-DDDDDDDD/export-Manifest.json` (eight
ASCII digits in each date field) matches a prefix of the key — anchored at
the start, with arbitrary trailing characters allowed; and for an accepted
key the parse succeeds, deriving the billing period from the leftmost
`/dddddddd-dddddddd/` group by taking its first 4 digits as the year and
the next 2 as the month. -/
theorem c6_amended :
    (∀ (pfx exp key : String), v1MatchB pfx exp key = true ↔
      ∃ d1 d2 rest,
        key.data = pfx.data ++ ('/' :: (exp.data ++ ('/' :: (d1 ++ ('-' ::
          (d2 ++ ('/' :: (exp.data ++ (("-Manifest.json").data ++
            rest))))))))) ∧
        d1.length = 8 ∧ (∀ c ∈ d1, c.isDigit = true) ∧
        d2.length = 8 ∧ (∀ c ∈ d2, c.isDigit = true)) ∧
    (∀ (bucket pfx exp key : String), v1MatchB pfx exp key = true →
      ∃ g, searchDate key.data = some g ∧
        parseManifestKey ("v1") bucket key =
          some { bucket := bucket, key := key,
                 billing_period :=
                   String.mk (g.take 4 ++ '-' :: (g.drop 4).take 2),
                 version := "v1" }) := by
  constructor
  · intro pfx exp key
    constructor
    · intro h
      rw [v1MatchB, Option.isSome_iff_exists] at h
      obtain ⟨rest, hr⟩ := h
      rw [v1Rem_eq_some] at hr
      obtain ⟨d1, d2, hkey, hl1, hg1, hl2, hg2⟩ := hr
      exact ⟨d1, d2, rest, hkey, hl1, hg1, hl2, hg2⟩
    · rintro ⟨d1, d2, rest, hkey, hl1, hg1, hl2, hg2⟩
      rw [v1MatchB, Option.isSome_iff_exists]
      exact ⟨rest, (v1Rem_eq_some pfx exp key.data rest).mpr
        ⟨d1, d2, hkey, hl1, hg1, hl2, hg2⟩⟩
  · intro bucket pfx exp key h
    rw [v1MatchB, Option.isSome_iff_exists] at h
    obtain ⟨rest, hr⟩ := h
    rw [v1Rem_eq_some] at hr
    obtain ⟨d1, d2, hkey, hl1, hg1, hl2, hg2⟩ := hr
    have hshape : key.data = (pfx.data ++ ('/' :: exp.data)) ++ ('/' ::
        (d1 ++ ('-' :: (d2 ++ ('/' :: (exp.data ++ (("-Manifest.json").data
          ++ rest))))))) := by
      rw [hkey]
      simp [List.append_assoc]
    have hsome := searchDate_isSome (pfx.data ++ ('/' :: exp.data)) d1 d2
      (exp.data ++ (("-Manifest.json").data ++ rest)) hl1 hg1 hl2 hg2
    rw [← hshape] at hsome
    obtain ⟨g, hg⟩ := Option.isSome_iff_exists.mp hsome
    refine ⟨g, hg, ?_⟩
    simp [parseManifestKey, hg]

/-- Witness for the C6 amended theorem at a well-formed key. -/
theorem c6_amended_witness :
    ∃ g, searchDate (("cur/acme/20240101-20240201/acme-Manifest.json").data)
        = some g ∧
      parseManifestKey ("v1") ("b")
          ("cur/acme/20240101-20240201/acme-Manifest.json") =
        some { bucket := ("b"),
               key := ("cur/acme/20240101-20240201/acme-Manifest.json"),
               billing_period :=
                 String.mk (g.take 4 ++ '-' :: (g.drop 4).take 2),
               version := "v1" } :=
  c6_amended.2 ("b") ("cur") ("acme")
    ("cur/acme/20240101-20240201/acme-Manifest.json") (by decide)

/-! AWS v1 manifest normalizer
(`open_finops/aws_ofs/manifest_normalizer.py`).  The manifest JSON is
embedded already parsed; `billingPeriod.start` is embedded as the datetime
produced by `dateutil.parser.parse`.  The pydantic `Column` model declares
`type: str`, but `type_mapping.get(...)` with no default yields Python
`None` for a present-but-unmapped type, so the embedded column type is an
`Option`. -/

/-- A parsed datetime (the fields `replace(day=1)` interacts with). -/
structure PyDateTime where
  year : Nat
  month : Nat
  day : Nat
  hour : Nat
deriving DecidableEq, Repr

/-- A column entry of the v1 manifest JSON; `type` is absent in old
manifests. -/
structure V1Column where
  category : String
  name : String
  type : Option String
deriving DecidableEq, Repr

/-- The constructed `Column(name=..., type=...)` value; `type` is `none`
exactly when the dictionary lookup returned Python `None`. -/
structure NColumn where
  name : String
  type : Option String
deriving DecidableEq, Repr

/-- The fields of the v1 manifest JSON used by `normalize_v1`. -/
structure V1Manifest where
  columns : List V1Column
  billingPeriodStart : PyDateTime
  assemblyId : String
  reportKeys : List String
deriving DecidableEq, Repr

/-- The `ManifestObject` produced by normalization. -/
structure ManifestObject where
  billing_period : PyDateTime
  execution_id : String
  data_files : List String
  columns : List NColumn
  vendor : String
  version : String
deriving DecidableEq, Repr

/-- The `type_mapping` dict of `normalize_v1`; `.get` on a key outside the
dict returns Python `None`. -/
def awsV1TypeMapping : String → Option String
  | "String" => some ("String")
  | "Interval" => some ("String")
  | "DateTime" => some ("DateTime")
  | "Decimal" => some ("Decimal(20, 8)")
  | "BigDecimal" => some ("Decimal(20, 8)")
  | "OptionalBigDecimal" => some ("Decimal(20, 8)")
  | "OptionalString" => some ("String")
  | _ => none

/-- `re.sub(':', '_', name)`: every colon becomes an underscore. -/
def replaceColons (s : String) : String :=
  String.mk (s.data.map (fun c => if c = ':' then '_' else c))

/-- One column of `normalize_v1`: name is `<category>_<name with ':'
replaced>`; the type is `type_mapping.get(column.get("type", "String"))`,
so a missing type defaults to the String case but an unknown present type
yields `none`. -/
def normalizeV1Column (c : V1Column) : NColumn :=
  { name := c.category ++ "_" ++ replaceColons c.name,
    type := awsV1TypeMapping (c.type.getD ("String")) }

/-- `AWSManifestNormalizer.normalize_v1`. -/
def normalizeV1 (m : V1Manifest) : ManifestObject :=
  { billing_period := { m.billingPeriodStart with day := 1 },
    execution_id := m.assemblyId,
    data_files := m.reportKeys,
    columns := m.columns.map normalizeV1Column,
    vendor := "aws",
    version := "v1" }

/-- C7: evaluation of `normalize_v1` — billing period is the parsed start
with `day` set to 1, version id is `assemblyId`, data files are
`reportKeys`, column names replace ':' with '_'; a missing source type
maps to String as claimed, but a present unknown type (here "Foo") maps to
Python `None` instead of the claimed String default — the failing input of
the code bug, which also violates the pydantic declaration
`Column.type: str`. -/
theorem c7_normalize_v1 :
    (∀ (m : V1Manifest),
      (normalizeV1 m).billing_period =
        { m.billingPeriodStart with day := 1 } ∧
      (normalizeV1 m).execution_id = m.assemblyId ∧
      (normalizeV1 m).data_files = m.reportKeys ∧
      (normalizeV1 m).columns = m.columns.map normalizeV1Column) ∧
    (∀ (c : V1Column), (normalizeV1Column c).name =
      c.category ++ "_" ++ replaceColons c.name) ∧
    awsV1TypeMapping ("Foo") = none ∧
    normalizeV1Column
        { category := ("x"), name := ("a:b"), type := some ("Foo") } =
      { name := ("x_a_b"), type := none } ∧
    normalizeV1Column { category := ("x"), name := ("a:b"), type := none } =
      { name := ("x_a_b"), type := some ("String") } :=
  ⟨fun _ => ⟨rfl, rfl, rfl, rfl⟩, fun _ => rfl, rfl, by decide, by decide⟩

/-! Table-name sanitizer (`core/table_utils.py`, `sanitize_table_name`).
The function works on Unicode strings in Python; the embedding models the
ASCII fragment (`.lower()` as ASCII case folding, `isalpha` as the ASCII
letter test), which agrees with the source on all ASCII inputs, and the
character classes of the regexes are ASCII classes in the source. -/

/-- Python `str.lower()` restricted to ASCII. -/
def asciiLower (c : Char) : Char :=
  if 'A' ≤ c ∧ c ≤ 'Z' then Char.ofNat (c.toNat + 32) else c

/-- The separator character class of the first re.sub: ASCII whitespace,
hyphen, slash and backslash. -/
def sepChars : List Char :=
  [' ', '\t', '\n', '\r', '\x0b', '\x0c', '-', '/', '\\']

def isSepChar (c : Char) : Bool := decide (c ∈ sepChars)

/-- The first re.sub of the source, replacing separators by an
underscore: each maximal run of separator characters becomes a single
underscore; `prev` records whether the previous character was part of a
run. -/
def sepsToU (prev : Bool) : List Char → List Char
  | [] => []
  | c :: rest =>
    if isSepChar c then
      if prev then sepsToU true rest else '_' :: sepsToU true rest
    else c :: sepsToU false rest

def isLowerAZ (c : Char) : Bool := decide ('a' ≤ c) && decide (c ≤ 'z')

def isDigit09 (c : Char) : Bool := decide ('0' ≤ c) && decide (c ≤ '9')

/-- The character class `[a-z0-9_]` kept by `re.sub(r'[^a-z0-9_]', '', .)`. -/
def isAllowed (c : Char) : Bool :=
  isLowerAZ c || isDigit09 c || decide (c = '_')

/-- Python `str.isalpha()` restricted to ASCII. -/
def isAlphaAscii (c : Char) : Bool :=
  (decide ('A' ≤ c) && decide (c ≤ 'Z')) || isLowerAZ c

/-- `re.sub(r'[^a-z0-9_]', '', name)`. -/
def keepAllowed (l : List Char) : List Char := l.filter isAllowed

/-- `if not name or not name[0].isalpha(): name = 'export_' + name`. -/
def ensureLeadingAlpha (l : List Char) : List Char :=
  match l with
  | [] => ("export_").data
  | c :: _ => if isAlphaAscii c then l else ("export_").data ++ l

/-- `re.sub(r'_+', '_', name)`: collapse runs of underscores. -/
def collapseU (prev : Bool) : List Char → List Char
  | [] => []
  | c :: rest =>
    if c = '_' then
      if prev then collapseU true rest else '_' :: collapseU true rest
    else c :: collapseU false rest

def isU (c : Char) : Bool := decide (c = '_')

/-- `name.strip('_')`. -/
def stripU (l : List Char) : List Char :=
  ((l.dropWhile isU).reverse.dropWhile isU).reverse

/-- `if len(name) > 50: name = name[:50]`. -/
def truncate50 (l : List Char) : List Char :=
  if l.length > 50 then l.take 50 else l

/-- `sanitize_table_name`, the six steps in source order. -/
def sanitize_table_name (s : List Char) : List Char :=
  truncate50 (stripU (collapseU false (ensureLeadingAlpha (keepAllowed
    (sepsToU false (s.map asciiLower))))))

/-- C8 counterexample: the truncation to 50 characters happens after the
underscore strip, so it can expose a trailing underscore which the second
application then strips; `sanitize` is not idempotent on 49 a's followed
by `_b`. -/
theorem c8_counterexample :
    sanitize_table_name (List.replicate 49 'a' ++ ['_', 'b']) =
      List.replicate 49 'a' ++ ['_'] ∧
    sanitize_table_name
        (sanitize_table_name (List.replicate 49 'a' ++ ['_', 'b'])) =
      List.replicate 49 'a' ∧
    sanitize_table_name
        (sanitize_table_name (List.replicate 49 'a' ++ ['_', 'b'])) ≠
      sanitize_table_name (List.replicate 49 'a' ++ ['_', 'b']) := by
  decide

theorem asciiLower_allowed {c : Char} (h : isAllowed c = true) :
    asciiLower c = c := by
  rw [asciiLower, if_neg]
  rintro ⟨h1, h2⟩
  rw [isAllowed, Bool.or_eq_true, Bool.or_eq_true] at h
  rcases h with (h | h) | h
  · rw [isLowerAZ, Bool.and_eq_true, decide_eq_true_eq, decide_eq_true_eq] at h
    exact absurd (le_trans h.1 h2) (by decide)
  · rw [isDigit09, Bool.and_eq_true, decide_eq_true_eq, decide_eq_true_eq] at h
    exact absurd (le_trans h1 h.2) (by decide)
  · rw [decide_eq_true_eq] at h
    subst h
    exact absurd h2 (by decide)

theorem sep_not_allowed {c : Char} (h : isAllowed c = true) :
    isSepChar c = false := by
  by_contra hne
  rw [Bool.not_eq_false, isSepChar, decide_eq_true_eq] at hne
  revert h
  fin_cases hne <;> decide

theorem lower_ne_underscore {c : Char} (h : isLowerAZ c = true) : c ≠ '_' := by
  intro he
  subst he
  exact absurd h (by decide)

theorem allowed_alpha_lower {c : Char} (ha : isAllowed c = true)
    (hb : isAlphaAscii c = true) : isLowerAZ c = true := by
  rw [isAlphaAscii, Bool.or_eq_true] at hb
  cases hb with
  | inl hb =>
    rw [Bool.and_eq_true, decide_eq_true_eq, decide_eq_true_eq] at hb
    rw [isAllowed, Bool.or_eq_true, Bool.or_eq_true] at ha
    rcases ha with (ha | ha) | ha
    · exact ha
    · rw [isDigit09, Bool.and_eq_true, decide_eq_true_eq,
        decide_eq_true_eq] at ha
      exact absurd (le_trans hb.1 ha.2) (by decide)
    · rw [decide_eq_true_eq] at ha
      subst ha
      exact absurd hb.2 (by decide)
  | inr hb => exact hb

theorem sepsToU_id {l : List Char} (h : ∀ c ∈ l, isSepChar c = false) :
    ∀ b, sepsToU b l = l := by
  induction l with
  | nil => intro b; rfl
  | cons c rest ih =>
    intro b
    rw [sepsToU, if_neg (by simp [h c (List.mem_cons_self c rest)])]
    rw [ih (fun x hx => h x (List.mem_cons_of_mem c hx)) false]

theorem export_data_allowed : ∀ c ∈ ("export_").data, isAllowed c = true := by
  decide

/-- The output has no two adjacent underscores. -/
def noDoubleU : List Char → Bool
  | c1 :: c2 :: rest =>
    if c1 = '_' ∧ c2 = '_' then false else noDoubleU (c2 :: rest)
  | _ => true

theorem noDoubleU_tail {c : Char} {l : List Char}
    (h : noDoubleU (c :: l) = true) : noDoubleU l = true := by
  cases l with
  | nil => rfl
  | cons c2 r =>
    rw [noDoubleU] at h
    split at h
    · exact absurd h (by simp)
    · exact h

theorem noDoubleU_cons_of {c : Char} {l : List Char}
    (h : c ≠ '_' ∨ ∀ d, l.head? = some d → d ≠ '_')
    (hl : noDoubleU l = true) : noDoubleU (c :: l) = true := by
  cases l with
  | nil => rfl
  | cons c2 r =>
    rw [noDoubleU, if_neg]
    · exact hl
    · rintro ⟨h1, h2⟩
      cases h with
      | inl h => exact h h1
      | inr h => exact h c2 rfl h2

theorem collapseU_true_head {l : List Char} :
    ∀ c, (collapseU true l).head? = some c → c ≠ '_' := by
  induction l with
  | nil => intro c hc; exact absurd hc (by simp [collapseU])
  | cons x rest ih =>
    intro c hc
    by_cases hx : x = '_'
    · rw [collapseU, if_pos hx, if_pos rfl] at hc
      exact ih c hc
    · rw [collapseU, if_neg hx] at hc
      rw [List.head?_cons] at hc
      injection hc with hc
      rw [← hc]
      exact hx

theorem noDoubleU_collapseU (l : List Char) :
    ∀ b, noDoubleU (collapseU b l) = true := by
  induction l with
  | nil => intro b; rfl
  | cons c rest ih =>
    intro b
    by_cases hc : c = '_'
    · rw [collapseU, if_pos hc]
      cases b with
      | true => exact ih true
      | false =>
        rw [if_neg (by simp)]
        exact noDoubleU_cons_of
          (Or.inr (fun d hd => collapseU_true_head d hd)) (ih true)
    · rw [collapseU, if_neg hc]
      exact noDoubleU_cons_of (Or.inl hc) (ih false)

theorem collapseU_true_eq_false {l : List Char}
    (h : ∀ d, l.head? = some d → d ≠ '_') :
    collapseU true l = collapseU false l := by
  cases l with
  | nil => rfl
  | cons c r =>
    have hc : c ≠ '_' := h c rfl
    rw [collapseU, collapseU, if_neg hc, if_neg hc]

theorem collapseU_eq_self {l : List Char} (h : noDoubleU l = true) :
    collapseU false l = l := by
  induction l with
  | nil => rfl
  | cons c rest ih =>
    by_cases hc : c = '_'
    · subst hc
      rw [collapseU, if_pos rfl, if_neg (by simp)]
      have hh : ∀ d, rest.head? = some d → d ≠ '_' := by
        intro d hd he
        subst he
        cases rest with
        | nil => exact absurd hd (by simp)
        | cons c2 r2 =>
          rw [List.head?_cons] at hd
          injection hd with hd
          rw [noDoubleU, if_pos ⟨rfl, hd⟩] at h
          exact absurd h (by simp)
      rw [collapseU_true_eq_false hh, ih (noDoubleU_tail h)]
    · rw [collapseU, if_neg hc, ih (noDoubleU_tail h)]

theorem mem_collapseU {c : Char} {l : List Char} :
    ∀ b, c ∈ collapseU b l → c = '_' ∨ c ∈ l := by
  induction l with
  | nil => intro b hc; exact absurd hc (by simp [collapseU])
  | cons x rest ih =>
    intro b hc
    by_cases hx : x = '_'
    · rw [collapseU, if_pos hx] at hc
      cases b with
      | true =>
        rcases ih true hc with h | h
        · exact Or.inl h
        · exact Or.inr (List.mem_cons_of_mem x h)
      | false =>
        rw [if_neg (by simp)] at hc
        rcases List.mem_cons.mp hc with h | h
        · exact Or.inl h
        · rcases ih true h with h2 | h2
          · exact Or.inl h2
          · exact Or.inr (List.mem_cons_of_mem x h2)
    · rw [collapseU, if_neg hx] at hc
      rcases List.mem_cons.mp hc with h | h
      · exact Or.inr (by rw [h]; exact List.mem_cons_self x rest)
      · rcases ih false h with h2 | h2
        · exact Or.inl h2
        · exact Or.inr (List.mem_cons_of_mem x h2)

theorem noDoubleU_append_left :
    ∀ (l1 l2 : List Char), noDoubleU (l1 ++ l2) = true →
      noDoubleU l1 = true := by
  intro l1
  induction l1 with
  | nil => intro l2 h; rfl
  | cons c r ih =>
    intro l2 h
    cases r with
    | nil => rfl
    | cons c2 r2 =>
      rw [List.cons_append, List.cons_append] at h
      rw [noDoubleU] at h ⊢
      split at h
      · exact absurd h (by simp)
      · rename_i hcond
        rw [if_neg hcond]
        exact ih l2 (by rw [List.cons_append]; exact h)

theorem dropWhile_head_id {p : Char → Bool} {l : List Char}
    (h : ∀ c, l.head? = some c → p c = false) : l.dropWhile p = l := by
  cases l with
  | nil => rfl
  | cons c r =>
    rw [List.dropWhile_cons, if_neg]
    simp [h c rfl]

theorem dropWhile_append_last (p : Char → Bool) (xs : List Char) {c : Char}
    (hc : p c = false) :
    (xs ++ [c]).dropWhile p = xs.dropWhile p ++ [c] := by
  induction xs with
  | nil => simp [List.dropWhile_cons, hc]
  | cons x r ih =>
    rw [List.cons_append, List.dropWhile_cons, List.dropWhile_cons]
    by_cases hx : p x = true
    · rw [if_pos hx, if_pos hx, ih]
    · rw [if_neg hx, if_neg hx, List.cons_append]

theorem noDoubleU_dropWhile (p : Char → Bool) {l : List Char}
    (h : noDoubleU l = true) : noDoubleU (l.dropWhile p) = true := by
  induction l with
  | nil => rfl
  | cons c r ih =>
    rw [List.dropWhile_cons]
    by_cases hc : p c = true
    · rw [if_pos hc]
      exact ih (noDoubleU_tail h)
    · rw [if_neg hc]
      exact h

theorem rev_strip_split (m : List Char) :
    m = (m.reverse.dropWhile isU).reverse ++
      (m.reverse.takeWhile isU).reverse := by
  calc m = m.reverse.reverse := (List.reverse_reverse m).symm
    _ = ((m.reverse.takeWhile isU) ++ (m.reverse.dropWhile isU)).reverse := by
        rw [List.takeWhile_append_dropWhile]
    _ = (m.reverse.dropWhile isU).reverse ++
          (m.reverse.takeWhile isU).reverse := by
        rw [List.reverse_append]

theorem stripU_decompose (l : List Char) :
    ∃ w, l.dropWhile isU = stripU l ++ w := by
  exact ⟨((l.dropWhile isU).reverse.takeWhile isU).reverse,
    rev_strip_split (l.dropWhile isU)⟩

theorem mem_stripU {c : Char} {l : List Char} (h : c ∈ stripU l) : c ∈ l := by
  obtain ⟨w, hw⟩ := stripU_decompose l
  have h1 : c ∈ l.dropWhile isU := by
    rw [hw]
    exact List.mem_append_left w h
  have h2 : l.takeWhile isU ++ l.dropWhile isU = l :=
    List.takeWhile_append_dropWhile isU l
  rw [← h2]
  exact List.mem_append_right _ h1

theorem noDoubleU_stripU {l : List Char} (h : noDoubleU l = true) :
    noDoubleU (stripU l) = true := by
  obtain ⟨w, hw⟩ := stripU_decompose l
  apply noDoubleU_append_left (stripU l) w
  rw [← hw]
  exact noDoubleU_dropWhile isU h

theorem stripU_head {c : Char} {l : List Char} (hh : l.head? = some c)
    (hc : c ≠ '_') : (stripU l).head? = some c := by
  cases l with
  | nil => exact absurd hh (by simp)
  | cons x t =>
    rw [List.head?_cons] at hh
    injection hh with hh
    subst hh
    have hcu : isU x = false := by simp [isU, hc]
    have hfront : (x :: t).dropWhile isU = x :: t := by
      rw [List.dropWhile_cons, if_neg (by simp [hcu])]
    rw [stripU, hfront, List.reverse_cons,
      dropWhile_append_last isU t.reverse hcu]
    simp [List.reverse_append]

theorem stripU_eq_self {c : Char} {l : List Char} (hh : l.head? = some c)
    (hc : c ≠ '_') (hlast : l.getLast? ≠ some '_') : stripU l = l := by
  have hfront : l.dropWhile isU = l := by
    apply dropWhile_head_id
    intro d hd
    rw [hh] at hd
    injection hd with hd
    simp [isU, ← hd, hc]
  have hback : l.reverse.dropWhile isU = l.reverse := by
    apply dropWhile_head_id
    intro d hd
    rw [List.head?_reverse] at hd
    have : d ≠ '_' := by
      intro he
      rw [he] at hd
      exact hlast hd
    simp [isU, this]
  rw [stripU, hfront, hback, List.reverse_reverse]

theorem truncate50_head (l : List Char) :
    (truncate50 l).head? = l.head? := by
  rw [truncate50]
  split
  · cases l with
    | nil => rfl
    | cons c t => rw [show (50 : Nat) = 49 + 1 from rfl, List.take_succ_cons]
                  rfl
  · rfl

theorem truncate50_length (l : List Char) : (truncate50 l).length ≤ 50 := by
  rw [truncate50]
  split
  · rw [List.length_take]
    omega
  · omega

theorem mem_truncate50 {c : Char} {l : List Char} (h : c ∈ truncate50 l) :
    c ∈ l := by
  rw [truncate50] at h
  split at h
  · exact List.take_subset 50 l h
  · exact h

theorem noDoubleU_truncate50 {l : List Char} (h : noDoubleU l = true) :
    noDoubleU (truncate50 l) = true := by
  rw [truncate50]
  split
  · apply noDoubleU_append_left (l.take 50) (l.drop 50)
    rw [List.take_append_drop]
    exact h
  · exact h

theorem truncate50_eq_self {l : List Char} (h : l.length ≤ 50) :
    truncate50 l = l := by
  rw [truncate50, if_neg]
  omega

theorem lower_alpha {c : Char} (h : isLowerAZ c = true) :
    isAlphaAscii c = true := by
  rw [isAlphaAscii, h, Bool.or_true]

theorem ensure_props {l : List Char} (hA : ∀ c ∈ l, isAllowed c = true) :
    ∃ c0, (ensureLeadingAlpha l).head? = some c0 ∧ isLowerAZ c0 = true ∧
      ∀ c ∈ ensureLeadingAlpha l, isAllowed c = true := by
  cases l with
  | nil =>
    refine ⟨'e', by decide, by decide, ?_⟩
    intro c hc
    exact export_data_allowed c hc
  | cons c t =>
    by_cases hca : isAlphaAscii c = true
    · have he : ensureLeadingAlpha (c :: t) = c :: t := by
        simp [ensureLeadingAlpha, hca]
      rw [he]
      exact ⟨c, rfl, allowed_alpha_lower (hA c (List.mem_cons_self c t)) hca,
        hA⟩
    · have he : ensureLeadingAlpha (c :: t) = ("export_").data ++ (c :: t) := by
        simp [ensureLeadingAlpha, hca]
      rw [he]
      refine ⟨'e', rfl, by decide, ?_⟩
      intro x hx
      rcases List.mem_append.mp hx with h | h
      · exact export_data_allowed x h
      · exact hA x h

theorem sanitize_props (s : List Char) :
    ∃ c0, (sanitize_table_name s).head? = some c0 ∧ isLowerAZ c0 = true ∧
      (∀ c ∈ sanitize_table_name s, isAllowed c = true) ∧
      noDoubleU (sanitize_table_name s) = true ∧
      (sanitize_table_name s).length ≤ 50 := by
  unfold sanitize_table_name
  obtain ⟨c0, h4h, h4l, h4a⟩ :=
    ensure_props (l := keepAllowed (sepsToU false (s.map asciiLower)))
      (fun c hc => (List.mem_filter.mp hc).2)
  have hc0u : c0 ≠ '_' := lower_ne_underscore h4l
  cases hcz : ensureLeadingAlpha (keepAllowed (sepsToU false
      (s.map asciiLower))) with
  | nil =>
    rw [hcz] at h4h
    exact absurd h4h (by simp)
  | cons x t4 =>
    rw [hcz] at h4h h4a
    rw [List.head?_cons] at h4h
    injection h4h with h4h
    subst h4h
    have h5eq : collapseU false (x :: t4) = x :: collapseU false t4 := by
      rw [collapseU, if_neg hc0u]
    have h5h : (collapseU false (x :: t4)).head? = some x := by
      rw [h5eq]
      rfl
    have h5a : ∀ c ∈ collapseU false (x :: t4), isAllowed c = true := by
      intro c hc
      rcases mem_collapseU false hc with h | h
      · rw [h]; decide
      · exact h4a c h
    have h5nd : noDoubleU (collapseU false (x :: t4)) = true :=
      noDoubleU_collapseU (x :: t4) false
    have h6h := stripU_head h5h hc0u
    have h6a : ∀ c ∈ stripU (collapseU false (x :: t4)),
        isAllowed c = true := fun c hc => h5a c (mem_stripU hc)
    have h6nd := noDoubleU_stripU h5nd
    refine ⟨x, ?_, h4l, ?_, ?_, truncate50_length _⟩
    · rw [truncate50_head]
      exact h6h
    · intro c hc
      exact h6a c (mem_truncate50 hc)
    · exact noDoubleU_truncate50 h6nd

theorem sanitize_fix {y : List Char} {c0 : Char} (hh : y.head? = some c0)
    (hl : isLowerAZ c0 = true) (ha : ∀ c ∈ y, isAllowed c = true)
    (hnd : noDoubleU y = true) (hlen : y.length ≤ 50)
    (hlast : y.getLast? ≠ some '_') :
    sanitize_table_name y = y := by
  have h1 : y.map asciiLower = y := by
    have hid : ∀ c ∈ y, asciiLower c = id c :=
      fun c hc => asciiLower_allowed (ha c hc)
    rw [List.map_congr_left hid, List.map_id]
  have h2 : sepsToU false y = y :=
    sepsToU_id (fun c hc => sep_not_allowed (ha c hc)) false
  have h3 : keepAllowed y = y := by
    rw [keepAllowed, List.filter_eq_self]
    exact ha
  have h4 : ensureLeadingAlpha y = y := by
    cases y with
    | nil => exact absurd hh (by simp)
    | cons x t =>
      rw [List.head?_cons] at hh
      injection hh with hh
      subst hh
      simp [ensureLeadingAlpha, lower_alpha hl]
  have h5 : collapseU false y = y := collapseU_eq_self hnd
  have h6 : stripU y = y := stripU_eq_self hh (lower_ne_underscore hl) hlast
  have h7 : truncate50 y = y := truncate50_eq_self hlen
  unfold sanitize_table_name
  rw [h1, h2, h3, h4, h5, h6, h7]

/-- C8 (amended): the result of `sanitize_table_name` always matches
`^[a-z][a-z0-9_]{0,49}$` — nonempty, leading lowercase letter, at most 50
characters over `[a-z0-9_]`; `sanitize(sanitize(x)) = sanitize(x)` holds
whenever `sanitize(x)` does not end in an underscore, but the unrestricted
idempotence fails because truncation to 50 characters happens after the
underscore strip and can re-expose a trailing underscore. -/
theorem c8_amended :
    (∀ (s : List Char),
      sanitize_table_name s ≠ [] ∧
      (∀ c, (sanitize_table_name s).head? = some c → isLowerAZ c = true) ∧
      (sanitize_table_name s).length ≤ 50 ∧
      (∀ c ∈ sanitize_table_name s, isAllowed c = true)) ∧
    (∀ (s : List Char), (sanitize_table_name s).getLast? ≠ some '_' →
      sanitize_table_name (sanitize_table_name s) = sanitize_table_name s) := by
  constructor
  · intro s
    obtain ⟨c0, hh, hl, ha, hnd, hlen⟩ := sanitize_props s
    refine ⟨?_, ?_, hlen, ha⟩
    · intro he
      rw [he] at hh
      exact absurd hh (by simp)
    · intro c hc
      rw [hh] at hc
      injection hc with hc
      rw [← hc]
      exact hl
  · intro s hlast
    obtain ⟨c0, hh, hl, ha, hnd, hlen⟩ := sanitize_props s
    exact sanitize_fix hh hl ha hnd hlen hlast

/-- Witness for the C8 amended theorem at a concrete export name. -/
theorem c8_amended_witness :
    (sanitize_table_name (("My-Export").data)).getLast? ≠ some '_' ∧
      sanitize_table_name (sanitize_table_name (("My-Export").data)) =
        sanitize_table_name (("My-Export").data) :=
  ⟨by decide, c8_amended.2 (("My-Export").data) (by decide)⟩

/-! Orchestrator skip-or-load decision (`vendors/aws/pipeline.py`,
separate-tables strategy).  The run is modelled on its success path: for
each manifest kept by the filter the pipeline calls `start_load`, rewrites
the month table with replace disposition (one table write), and calls
`complete_load` with the row count.  Manifest discovery and fetching only
read from the object store. -/

/-- The data of a fetched manifest used by the loop. -/
structure MRef where
  billing_period : String
  assembly_id : String
  file_count : Nat
  row_count : Nat
deriving DecidableEq, Repr

/-- The state key the loop uses for a manifest:
`('aws', config.export_name, m.billing_period, m.assembly_id)`. -/
def keyOf (exp : String) (m : MRef) : LoadKey :=
  { vendor := "aws", export_name := exp,
    billing_period := m.billing_period, version_id := m.assembly_id }

/-- The filter phase: skip a manifest iff the reset flag is clear and its
version is already loaded; no state is written here. -/
def manifestsToLoad (reset : Bool) (exp : String) (s : List DBRec)
    (ms : List MRef) : List MRef :=
  ms.filter (fun m => !(!reset && dbIsVersionLoaded (keyOf exp m) s))

/-- Loading one manifest on the success path: `start_load`, table write,
`complete_load` with the row count. -/
def loadOne (fmt exp : String) (t : Nat) (s : List DBRec) (m : MRef) :
    List DBRec :=
  dbCompleteLoad (keyOf exp m) m.row_count
    (dbStartLoad t (keyOf exp m) fmt m.file_count s)

/-- The load loop over the kept manifests. -/
def runLoads (fmt exp : String) : Nat → List DBRec → List MRef → List DBRec
  | _, s, [] => s
  | t, s, m :: ms => runLoads fmt exp (t + 1) (loadOne fmt exp t s m) ms

/-- One orchestrator run: final state and the number of table writes
(one replace-disposition write per loaded manifest). -/
def runOnce (reset : Bool) (fmt exp : String) (t : Nat) (s : List DBRec)
    (ms : List MRef) : List DBRec × Nat :=
  (runLoads fmt exp t s (manifestsToLoad reset exp s ms),
    (manifestsToLoad reset exp s ms).length)

theorem exists_key_startLoad (t : Nat) (k : LoadKey) (fmt : String)
    (fc : Nat) (s : List DBRec) :
    ∃ r ∈ dbStartLoad t k fmt fc s, r.key = k := by
  rw [dbStartLoad]
  split
  · rename_i hany
    rw [List.any_eq_true] at hany
    obtain ⟨r, hr, hk⟩ := hany
    rw [decide_eq_true_eq] at hk
    refine ⟨dbStartFn t k fc r, List.mem_map_of_mem _ hr, ?_⟩
    simp [dbStartFn, hk]
  · exact ⟨_, List.mem_append_right s (List.mem_singleton_self _), rfl⟩

theorem loaded_after_completeLoad (k : LoadKey) (rc : Nat)
    {s : List DBRec} (h : ∃ r ∈ s, r.key = k) :
    dbIsVersionLoaded k (dbCompleteLoad k rc s) = true := by
  obtain ⟨r, hr, hk⟩ := h
  rw [dbCompleteLoad_eq_map, dbIsVersionLoaded, List.any_eq_true]
  refine ⟨dbCompleteFn k rc r, List.mem_map_of_mem _ hr, ?_⟩
  simp [dbCompleteFn, hk]

theorem loaded_loadOne (fmt exp : String) (t : Nat) (s : List DBRec)
    (m : MRef) :
    dbIsVersionLoaded (keyOf exp m) (loadOne fmt exp t s m) = true :=
  loaded_after_completeLoad _ _
    (exists_key_startLoad t (keyOf exp m) fmt m.file_count s)

theorem isLoaded_mono (fmt exp : String) (t : Nat) (s : List DBRec)
    (m : MRef) {k : LoadKey} (h : dbIsVersionLoaded k s = true) :
    dbIsVersionLoaded k (loadOne fmt exp t s m) = true := by
  by_cases hk : k = keyOf exp m
  · rw [hk]
    exact loaded_loadOne fmt exp t s m
  · rw [dbIsVersionLoaded, List.any_eq_true] at h
    obtain ⟨r, hr, hc⟩ := h
    rw [Bool.and_eq_true, decide_eq_true_eq] at hc
    have hrk : r.key ≠ keyOf exp m := by rw [hc.1]; exact hk
    -- the record survives start_load untouched
    have hs : ∃ r2 ∈ dbStartLoad t (keyOf exp m) fmt m.file_count s,
        r2.key = k ∧ r2.load_completed = true := by
      rw [dbStartLoad]
      split
      · refine ⟨dbStartFn t (keyOf exp m) m.file_count r,
          List.mem_map_of_mem _ hr, ?_⟩
        simp [dbStartFn, hrk, hk, hc.1, hc.2]
      · exact ⟨r, List.mem_append_left _ hr, hc.1, hc.2⟩
    obtain ⟨r2, hr2, hk2, hcmp2⟩ := hs
    rw [loadOne, dbCompleteLoad_eq_map, dbIsVersionLoaded, List.any_eq_true]
    refine ⟨dbCompleteFn (keyOf exp m) m.row_count r2,
      List.mem_map_of_mem _ hr2, ?_⟩
    have hrk2 : r2.key ≠ keyOf exp m := by rw [hk2]; exact hk
    rw [dbCompleteFn, if_neg hrk2]
    by_cases hd : monthOf r2.key = monthOf (keyOf exp m) ∧
        r2.key.version_id ≠ (keyOf exp m).version_id
    · rw [if_pos hd]
      simp [hk2, hcmp2]
    · rw [if_neg hd]
      simp [hk2, hcmp2]

theorem runLoads_loads (fmt exp : String) :
    ∀ (todo : List MRef) (t : Nat) (s : List DBRec),
      (∀ k, dbIsVersionLoaded k s = true →
        dbIsVersionLoaded k (runLoads fmt exp t s todo) = true) ∧
      (∀ m ∈ todo,
        dbIsVersionLoaded (keyOf exp m) (runLoads fmt exp t s todo) = true) := by
  intro todo
  induction todo with
  | nil =>
    intro t s
    exact ⟨fun k h => h, fun m hm => absurd hm (List.not_mem_nil m)⟩
  | cons m ms ih =>
    intro t s
    constructor
    · intro k h
      exact (ih (t + 1) (loadOne fmt exp t s m)).1 k
        (isLoaded_mono fmt exp t s m h)
    · intro m2 hm2
      rcases List.mem_cons.mp hm2 with hm2 | hm2
      · subst hm2
        exact (ih (t + 1) (loadOne fmt exp t s m2)).1 _
          (loaded_loadOne fmt exp t s m2)
      · exact (ih (t + 1) (loadOne fmt exp t s m)).2 m2 hm2

/-- C9: a manifest whose version is already loaded is skipped by the
filter when the reset flag is clear (the filter phase itself writes
nothing); an empty to-load list means the run returns the state unchanged
with zero table writes; and after a successful run with the reset flag
clear, rerunning on the same manifest list selects nothing and performs
zero writes. -/
theorem c9_second_run_no_writes :
    (∀ (reset : Bool) (exp : String) (s : List DBRec) (ms : List MRef)
        (m : MRef), reset = false →
        dbIsVersionLoaded (keyOf exp m) s = true →
        m ∉ manifestsToLoad reset exp s ms) ∧
    (∀ (fmt exp : String) (t : Nat) (s : List DBRec) (ms : List MRef),
        manifestsToLoad false exp s ms = [] →
        (runOnce false fmt exp t s ms).1 = s ∧
        (runOnce false fmt exp t s ms).2 = 0) ∧
    (∀ (fmt exp : String) (t t2 : Nat) (s : List DBRec) (ms : List MRef),
        manifestsToLoad false exp ((runOnce false fmt exp t s ms).1) ms = []
        ∧ (runOnce false fmt exp t2
            ((runOnce false fmt exp t s ms).1) ms).2 = 0) := by
  have hempty : ∀ (fmt exp : String) (t : Nat) (s : List DBRec)
      (ms : List MRef),
      manifestsToLoad false exp ((runOnce false fmt exp t s ms).1) ms = [] := by
    intro fmt exp t s ms
    rw [manifestsToLoad, List.filter_eq_nil_iff]
    intro m hm
    have hload : dbIsVersionLoaded (keyOf exp m)
        ((runOnce false fmt exp t s ms).1) = true := by
      by_cases hp : dbIsVersionLoaded (keyOf exp m) s = true
      · exact (runLoads_loads fmt exp _ t s).1 _ hp
      · have hmem : m ∈ manifestsToLoad false exp s ms := by
          rw [manifestsToLoad, List.mem_filter]
          refine ⟨hm, ?_⟩
          simp [hp]
        exact (runLoads_loads fmt exp _ t s).2 m hmem
    simp [hload]
  refine ⟨?_, ?_, ?_⟩
  · intro reset exp s ms m hreset hl hmem
    subst hreset
    rw [manifestsToLoad, List.mem_filter] at hmem
    rw [hl] at hmem
    simp at hmem
  · intro fmt exp t s ms h
    rw [runOnce, h]
    exact ⟨rfl, rfl⟩
  · intro fmt exp t t2 s ms
    refine ⟨hempty fmt exp t s ms, ?_⟩
    rw [runOnce, hempty fmt exp t s ms]
    rfl

/-- Witness for C9 at a concrete store: the already-loaded manifest of
`ops1` is not selected again. -/
theorem c9_second_run_no_writes_witness :
    { billing_period := ("2024-01"), assembly_id := ("va"),
      file_count := 1, row_count := 5 : MRef } ∉
      manifestsToLoad false ("acme") (dbRun ops1)
        [{ billing_period := ("2024-01"), assembly_id := ("va"),
           file_count := 1, row_count := 5 }] :=
  c9_second_run_no_writes.1 false ("acme") (dbRun ops1)
    [{ billing_period := ("2024-01"), assembly_id := ("va"),
       file_count := 1, row_count := 5 }]
    { billing_period := ("2024-01"), assembly_id := ("va"),
      file_count := 1, row_count := 5 } rfl (by decide)

end OFS
